import Mathlib

/-!
Verification of the go-docx placeholder replacement engine.

This file gives a shallow embedding of the core of the library:
the span / run / fragment / placeholder data model, the placeholder
assembler (`ParsePlaceholders`), the position validator
(`ValidatePositions`) and the replacement engine (`Replacer.Replace`),
translated from the Go source.

Modelling conventions:
- Go `int64` byte offsets become `Int`; the byte buffer becomes `List Char`
  (all delimiters and tags are ASCII, so byte = char here).
- Go pointers to `Run` become indices into an arena `runs : List Run`;
  Go pointers to `PlaceholderFragment` become pairs
  `(placeholder index, fragment index)`.  Pointer equality in the source
  becomes index equality.
- Go slice expressions that can panic (index out of range) are modelled
  with `Option`: `none` is the panicking execution.  Guarded accesses that
  the source itself checks keep the source's guard.
- Go's `regexp` patterns used by the validator are fixed literal-ish
  patterns; they are modelled by direct executable matchers (RE2 `.`
  matches any character except a newline).
-/

namespace GoDocx

/-- Open delimiter `{` (Char.ofNat 123 avoids brace literals). -/
def OpenDelimiter : Char := Char.ofNat 123

/-- Close delimiter `}`. -/
def CloseDelimiter : Char := Char.ofNat 125

/-- Position is a generic position of a tag, represented by byte offsets
(Go: `type Position struct { Start, End int64 }`). -/
structure Position where
  Start : Int
  End : Int
deriving Repr, DecidableEq

/-- Valid returns true if Start <= End (Go: `Position.Valid`). -/
def Position.ValidB (p : Position) : Bool := p.Start ≤ p.End

/-- TagPair describes an opening and closing tag position (Go: `TagPair`). -/
structure TagPair where
  OpenTag : Position
  CloseTag : Position
deriving Repr, DecidableEq

/-- Run defines a non-block region of text; four byte positions
(start and end tag) plus the inner text tag pair
(Go: `type Run struct { TagPair; ID int; Text TagPair; HasText bool }`). -/
structure Run where
  ID : Int
  OpenTag : Position
  CloseTag : Position
  Text : TagPair
  HasText : Bool
deriving Repr, DecidableEq

/-- PlaceholderFragment is a part of a placeholder within the document
(Go: `type PlaceholderFragment struct { ID int; Position Position; Number int; Run *Run }`).
The global debug-only `ID` counter is omitted; the `Run` pointer is an
arena index. -/
structure PlaceholderFragment where
  Pos : Position
  Number : Int
  Run : Nat
deriving Repr, DecidableEq

/-- Placeholder is an ordered list of fragments (Go: `type Placeholder`). -/
structure Placeholder where
  Fragments : List PlaceholderFragment
deriving Repr, DecidableEq

/-! ### Byte-buffer primitives -/

/-- Checked Go slice `doc[s:e]`: `none` exactly when Go panics
(requires `0 ≤ s ≤ e ≤ len doc`). -/
def sliceChk (doc : List Char) (s e : Int) : Option (List Char) :=
  if 0 ≤ s ∧ s ≤ e ∧ e ≤ (doc.length : Int) then
    some ((doc.drop s.toNat).take (e - s).toNat)
  else none

/-- Checked splice: `append(doc[:s], append(repl, doc[e:]...)...)`;
`none` when the slicing panics. -/
def spliceChk (doc : List Char) (s e : Int) (repl : List Char) :
    Option (List Char) :=
  if 0 ≤ s ∧ s ≤ e ∧ e ≤ (doc.length : Int) then
    some (doc.take s.toNat ++ repl ++ doc.drop e.toNat)
  else none

/-- All indices at which character `c` occurs (models
`regexp.FindAllStringIndex` for the single-character delimiter regexes). -/
def indicesOf (c : Char) (l : List Char) : List Nat :=
  (List.range l.length).filter (fun i => l.getD i OpenDelimiter == c)

/-! ### Run text access -/

/-- Run.GetText (Go): returns the run text, or "" if the run has no text or
the buffer is too small; `none` when the final slice would panic
(negative or inverted offsets pass the source's guard). -/
def Run.GetTextChk (r : Run) (doc : List Char) : Option (List Char) :=
  if !r.HasText then some []
  else
    let startPos := r.Text.OpenTag.End
    let endPos := r.Text.CloseTag.Start
    if (doc.length : Int) < startPos ∨ (doc.length : Int) < endPos then some []
    else sliceChk doc startPos endPos

/-- Fragment absolute start: `Run.Text.OpenTag.End + Position.Start`
(Go: `PlaceholderFragment.StartPos`), with the run resolved in the arena. -/
def fragStartPos (runs : List Run) (f : PlaceholderFragment) : Option Int :=
  (runs[f.Run]?).map (fun r => r.Text.OpenTag.End + f.Pos.Start)

/-- Fragment absolute end (Go: `PlaceholderFragment.EndPos`). -/
def fragEndPos (runs : List Run) (f : PlaceholderFragment) : Option Int :=
  (runs[f.Run]?).map (fun r => r.Text.OpenTag.End + f.Pos.End)

/-- One fragment's slice of the document, as taken by `Placeholder.Text`
(Go: `docBytes[s+fragment.Position.Start : s+fragment.Position.End]`,
unguarded, so `none` models the panic). -/
def fragSliceChk (runs : List Run) (doc : List Char)
    (f : PlaceholderFragment) : Option (List Char) := do
  let r ← runs[f.Run]?
  let s := r.Text.OpenTag.End
  sliceChk doc (s + f.Pos.Start) (s + f.Pos.End)

/-- Placeholder.Text (Go): assembles the fragments' slices in order. -/
def placeholderTextChk (runs : List Run) (doc : List Char)
    (p : Placeholder) : Option (List Char) :=
  go p.Fragments
where
  go : List PlaceholderFragment → Option (List Char)
    | [] => some []
    | f :: fs => do
      let t ← fragSliceChk runs doc f
      let rest ← go fs
      pure (t ++ rest)

/-- Placeholder.StartPos (Go): absolute start of the first fragment;
`none` if the placeholder has no fragments (Go would panic). -/
def placeholderStartPos (runs : List Run) (p : Placeholder) : Option Int := do
  let f ← p.Fragments[0]?
  fragStartPos runs f

/-- Placeholder.EndPos (Go): absolute end of the last fragment. -/
def placeholderEndPos (runs : List Run) (p : Placeholder) : Option Int := do
  let f ← p.Fragments[p.Fragments.length - 1]?
  fragEndPos runs f

/-- PlaceholderFragment.Valid (Go): all five positions satisfy
`Start ≤ End`; arena lookup failure (a nil `Run` pointer, unreachable for
states built by the parser) is `false`. -/
def fragValidB (runs : List Run) (f : PlaceholderFragment) : Bool :=
  match runs[f.Run]? with
  | some r =>
      r.OpenTag.ValidB && r.CloseTag.ValidB && r.Text.OpenTag.ValidB &&
        r.Text.CloseTag.ValidB && f.Pos.ValidB
  | none => false

/-- Placeholder.Valid (Go): every fragment is valid. -/
def placeholderValidB (runs : List Run) (p : Placeholder) : Bool :=
  p.Fragments.all (fragValidB runs)

/-! ### HTML escaping (Go `html.EscapeString`) -/

/-- Escape one character exactly as Go's `html.EscapeString` does. -/
def escapeChar (c : Char) : List Char :=
  if c = '&' then "&amp;".data
  else if c = Char.ofNat 39 then "&#39;".data
  else if c = '<' then "&lt;".data
  else if c = '>' then "&gt;".data
  else if c = Char.ofNat 34 then "&#34;".data
  else [c]

/-- html.EscapeString: the replacer has only single-character patterns, so
it acts character-wise. -/
def escapeString (l : List Char) : List Char := l.flatMap escapeChar

/-- True if the character is one of the five characters Go escapes. -/
def isSpecialChar (c : Char) : Bool :=
  c = '&' || c = Char.ofNat 39 || c = '<' || c = '>' || c = Char.ofNat 34

/-- True if the value contains any HTML-special character. -/
def hasSpecialChar (l : List Char) : Bool := l.any isSpecialChar

/-! ### Key delimiting -/

/-- IsDelimitedPlaceholder (Go): first byte is the open delimiter and last
byte the close delimiter; empty strings give false. -/
def IsDelimitedPlaceholder (s : List Char) : Bool :=
  match s with
  | [] => false
  | c :: rest => c = OpenDelimiter && (c :: rest).getLast (by simp) = CloseDelimiter

/-- AddPlaceholderDelimiter (Go): wrap with the delimiters unless already
delimited. -/
def AddPlaceholderDelimiter (s : List Char) : List Char :=
  if IsDelimitedPlaceholder s then s
  else OpenDelimiter :: s ++ [CloseDelimiter]

/-- The key normalization at the top of `Replacer.Replace` (Go): wrap the
key iff it does not contain the open delimiter or does not contain the
close delimiter. -/
def normalizeKey (key : List Char) : List Char :=
  if !key.contains OpenDelimiter || !key.contains CloseDelimiter then
    AddPlaceholderDelimiter key
  else key

/-! ### Position validator (Go `ValidatePositions` in parse.go)

The validator slices each tracked span out of the buffer and matches it
against a fixed regex.  RE2 semantics: matching is unanchored, `.` matches
any character except a newline. -/

/-- Does `pat` occur as a prefix of `s`? -/
def isPrefixAt (pat s : List Char) : Bool := pat.isPrefixOf s

/-- Unanchored substring containment (models a literal regex such as
`(</w:r>)`). -/
def containsSub (pat : List Char) : List Char → Bool
  | [] => pat.isEmpty
  | c :: rest => pat.isPrefixOf (c :: rest) || containsSub pat rest

/-- After a literal prefix, does `.*>` match: a `>` occurs before any
newline. -/
def dotStarGT (l : List Char) : Bool :=
  (l.takeWhile (fun c => c ≠ Char.ofNat 10)).contains '>'

/-- Unanchored match of `(pat).*>` (models `RunOpenTagRegex` and
`TextOpenTagRegex`). -/
def matchOpenPat (pat : List Char) : List Char → Bool
  | [] => pat.isEmpty && dotStarGT []
  | c :: rest =>
      (pat.isPrefixOf (c :: rest) && dotStarGT ((c :: rest).drop pat.length)) ||
        matchOpenPat pat rest

/-- Slice of the buffer at a position, as `Position.Match` takes it
(Go: `regexp.MatchString(string(data[p.Start:p.End]))`; `none` = panic). -/
def posSlice (doc : List Char) (p : Position) : Option (List Char) :=
  sliceChk doc p.Start p.End

/-- `run.OpenTag.Match(RunSingletonTagRegex, doc)`. -/
def matchSingleton (doc : List Char) (p : Position) : Option Bool :=
  (posSlice doc p).map (containsSub "<w:r/>".data)

/-- Validate a single run exactly as the loop body of `ValidatePositions`:
singleton runs are skipped; otherwise the open/close tags (and, when
`HasText`, the text open/close tags) must match their regexes. -/
def validateRunChk (doc : List Char) (r : Run) : Option Bool := do
  let sOpen ← posSlice doc r.OpenTag
  if containsSub "<w:r/>".data sOpen then
    pure true
  else
    let openOk := matchOpenPat "<w:r".data sOpen
    let sClose ← posSlice doc r.CloseTag
    let closeOk := containsSub "</w:r>".data sClose
    if r.HasText then
      let sTOpen ← posSlice doc r.Text.OpenTag
      let tOpenOk := matchOpenPat "<w:t".data sTOpen
      let sTClose ← posSlice doc r.Text.CloseTag
      let tCloseOk := containsSub "</w:t>".data sTClose
      pure (openOk && closeOk && tOpenOk && tCloseOk)
    else
      pure (openOk && closeOk)

/-- ValidatePositions (Go): aggregate over all given runs; the error is
returned iff any run failed.  `some true` = `nil` error, `some false` =
`ErrTagsInvalid`, `none` = a slice panicked. -/
def ValidatePositionsChk (doc : List Char) : List Run → Option Bool
  | [] => some true
  | r :: rest => do
    let ok ← validateRunChk doc r
    let restOk ← ValidatePositionsChk doc rest
    pure (ok && restOk)

/-! ### Placeholder assembly (Go `ParsePlaceholders` in placeholder.go) -/

/-- assembleFullPlaceholders (Go): pair the i-th open position with the
i-th close position; `none` models the `closePos[i]` index-out-of-range
panic when `closePos` is shorter than `openPos`. -/
def assembleFullPlaceholdersChk (runIdx : Nat) :
    List Nat → List Nat → Option (List Placeholder)
  | [], _ => some []
  | _ :: _, [] => none
  | o :: os, c :: cs => do
    let rest ← assembleFullPlaceholdersChk runIdx os cs
    pure (⟨[⟨⟨(o : Int), (c : Int) + 1⟩, 0, runIdx⟩]⟩ :: rest)

/-- The cross-run state of the assembler: the pending (unclosed)
placeholder's fragments, the `hasOpenPlaceholder` flag, and the
placeholders emitted so far. -/
structure ParseState where
  pendingFrags : List PlaceholderFragment
  hasOpen : Bool
  acc : List Placeholder
deriving Repr, DecidableEq

/-- isSpecialCase (Go): some pair has `openPos[i] > closePos[i] + 1`. -/
def isSpecialCaseB (openPos closePos : List Nat) : Bool :=
  (openPos.zip closePos).any (fun oc => oc.1 > oc.2 + 1)

/-- isNestedCase (Go): at least two opens and both before the first close. -/
def isNestedCaseB (openPos closePos : List Nat) : Bool :=
  match openPos, closePos with
  | o0 :: o1 :: _, c0 :: _ => o0 < c0 && o1 < c0
  | _, _ => false

/-- One iteration of the `ParsePlaceholders` run loop (Go, lines 74-235).
`none` models a panic, `some (.error ())` the StructuralParseError return,
`some (.ok st)` normal continuation. -/
def parseRunStep (doc : List Char) (runIdx : Nat) (run : Run)
    (st : ParseState) : Option (Except Unit ParseState) := do
  let runText ← run.GetTextChk doc
  let openPos := indicesOf OpenDelimiter runText
  let closePos := indicesOf CloseDelimiter runText
  if openPos.length = closePos.length ∧ openPos.length ≠ 0 then
    if isSpecialCaseB openPos closePos then do
      let ps ← assembleFullPlaceholdersChk runIdx openPos.dropLast
        (closePos.drop 1)
      let lastOpen ← openPos.getLast?
      let firstClose : Nat ← closePos[0]?
      if !st.hasOpen then
        pure (.error ())
      else
        let closing : PlaceholderFragment :=
          ⟨⟨0, (firstClose : Int) + 1⟩, 0, runIdx⟩
        let newPending : PlaceholderFragment :=
          ⟨⟨(lastOpen : Int), (runText.length : Int)⟩, 0, runIdx⟩
        pure (.ok ⟨[newPending], true,
          st.acc ++ ps ++ [⟨st.pendingFrags ++ [closing]⟩]⟩)
    else if isNestedCaseB openPos closePos then
      pure (.ok st)
    else do
      let ps ← assembleFullPlaceholdersChk runIdx openPos closePos
      pure (.ok ⟨st.pendingFrags, st.hasOpen, st.acc ++ ps⟩)
  else if openPos.length > closePos.length then do
    let ps ← assembleFullPlaceholdersChk runIdx openPos.dropLast closePos
    let unclosedOpenPos ← openPos.getLast?
    let frag : PlaceholderFragment :=
      ⟨⟨(unclosedOpenPos : Int), (runText.length : Int)⟩, 0, runIdx⟩
    pure (.ok ⟨st.pendingFrags ++ [frag], true, st.acc ++ ps⟩)
  else if openPos.length < closePos.length then do
    let ps ← assembleFullPlaceholdersChk runIdx openPos closePos.dropLast
    if h : closePos.length = 1 then
      let c0 := closePos[0]
      let frag : PlaceholderFragment := ⟨⟨0, (c0 : Int) + 1⟩, 0, runIdx⟩
      pure (.ok ⟨[], false, st.acc ++ ps ++ [⟨st.pendingFrags ++ [frag]⟩]⟩)
    else
      pure (.ok ⟨st.pendingFrags, st.hasOpen, st.acc ++ ps⟩)
  else
    if st.hasOpen then
      let frag : PlaceholderFragment := ⟨⟨0, (runText.length : Int)⟩, 0, runIdx⟩
      pure (.ok ⟨st.pendingFrags ++ [frag], st.hasOpen, st.acc⟩)
    else
      pure (.ok st)

/-- The run loop of `ParsePlaceholders`, over the arena indices of the
runs that have text. -/
def parseLoop (doc : List Char) (arena : List Run) :
    List Nat → ParseState → Option (Except Unit ParseState)
  | [], st => some (.ok st)
  | ri :: rest, st => do
    let run ← arena[ri]?
    let res ← parseRunStep doc ri run st
    match res with
    | .error e => some (.error e)
    | .ok st' => parseLoop doc arena rest st'

/-- The final filter of `ParsePlaceholders`: keep a placeholder iff it is
`Valid()` and its text contains both delimiters (the text slicing is
unguarded in the source, hence checked here). -/
def validFilterChk (arena : List Run) (doc : List Char) :
    List Placeholder → Option (List Placeholder)
  | [] => some []
  | p :: rest => do
    if !placeholderValidB arena p then
      validFilterChk arena doc rest
    else
      let t ← placeholderTextChk arena doc p
      let keep := t.contains OpenDelimiter && t.contains CloseDelimiter
      let restOut ← validFilterChk arena doc rest
      pure (if keep then p :: restOut else restOut)

/-- ParsePlaceholders (Go): iterate the runs with text, then filter.
`none` = panic, `some (.error ())` = StructuralParseError,
`some (.ok ps)` = the returned placeholder list. -/
def ParsePlaceholders (runs : List Run) (doc : List Char) :
    Option (Except Unit (List Placeholder)) := do
  let idxs := (List.range runs.length).filter
    (fun i => ((runs[i]?).map Run.HasText).getD false)
  let res ← parseLoop doc runs idxs ⟨[], false, []⟩
  match res with
  | .error e => pure (.error e)
  | .ok st => do
    let out ← validFilterChk runs doc st.acc
    pure (.ok out)

/-! ### Replacement engine (Go `Replacer` in replace.go)

The `Replacer` owns the mutable document, the placeholder list and the run
arena.  A fragment reference `(pi, fi)` stands for the Go pointer
`r.placeholders[pi].Fragments[fi]`; a run index stands for a `*Run`. -/

/-- The Replacer struct (Go).  `distinctRuns` holds arena indices. -/
structure Replacer where
  document : List Char
  placeholders : List Placeholder
  runs : List Run
  distinctRuns : List Nat
  ReplaceCount : Nat
  BytesChanged : Int
deriving Repr, DecidableEq

/-- A fragment reference: (placeholder index, fragment index). -/
abbrev FragRef := Nat × Nat

/-- Dereference a fragment pointer. -/
def getFrag (r : Replacer) (ref : FragRef) : Option PlaceholderFragment := do
  let p ← r.placeholders[ref.1]?
  p.Fragments[ref.2]?

/-- Replace the i-th element of a list (no-op out of range; all call sites
use in-range references obtained by iteration). -/
def listModify {α : Type} (l : List α) (i : Nat) (f : α → α) : List α :=
  l.modify f i

/-- Update the fragment behind a reference in place. -/
def modifyFrag (r : Replacer) (ref : FragRef)
    (f : PlaceholderFragment → PlaceholderFragment) : Replacer :=
  { r with placeholders :=
      (listModify r.placeholders ref.1 (fun p => ⟨listModify p.Fragments ref.2 f⟩)) }

/-- Update the run behind an arena index in place. -/
def modifyRun (r : Replacer) (ri : Nat) (f : Run → Run) : Replacer :=
  { r with runs := listModify r.runs ri f }

/-- PlaceholderFragment.ShiftAll (Go): shift all eight markers of the
fragment's run. -/
def shiftRunAll (d : Int) (run : Run) : Run :=
  { run with
      OpenTag := ⟨run.OpenTag.Start + d, run.OpenTag.End + d⟩
      CloseTag := ⟨run.CloseTag.Start + d, run.CloseTag.End + d⟩
      Text := ⟨⟨run.Text.OpenTag.Start + d, run.Text.OpenTag.End + d⟩,
        ⟨run.Text.CloseTag.Start + d, run.Text.CloseTag.End + d⟩⟩ }

/-- PlaceholderFragment.ShiftReplace (Go): shift the run's text-close and
close tags by delta and extend the fragment's own end by delta. -/
def shiftReplaceOp (r : Replacer) (ref : FragRef) (d : Int) : Replacer :=
  match getFrag r ref with
  | none => r
  | some frag =>
    let r := modifyRun r frag.Run (fun run =>
      { run with
          CloseTag := ⟨run.CloseTag.Start + d, run.CloseTag.End + d⟩
          Text := ⟨run.Text.OpenTag,
            ⟨run.Text.CloseTag.Start + d, run.Text.CloseTag.End + d⟩⟩ })
    modifyFrag r ref (fun f => { f with Pos := ⟨f.Pos.Start, f.Pos.End + d⟩ })

/-- PlaceholderFragment.ShiftCut (Go): pull the run's text-close and close
tags back by the cut length and collapse the fragment to the empty span. -/
def shiftCutOp (r : Replacer) (ref : FragRef) (cutLength : Int) : Replacer :=
  match getFrag r ref with
  | none => r
  | some frag =>
    let r := modifyRun r frag.Run (fun run =>
      { run with
          CloseTag := ⟨run.CloseTag.Start - cutLength,
            run.CloseTag.End - cutLength⟩
          Text := ⟨run.Text.OpenTag,
            ⟨run.Text.CloseTag.Start - cutLength,
              run.Text.CloseTag.End - cutLength⟩⟩ })
    modifyFrag r ref (fun f => { f with Pos := ⟨f.Pos.Start, f.Pos.Start⟩ })

/-- All fragment references of placeholder `pi` lying in run `ri`. -/
def fragRefsOfPlaceholderInRun (r : Replacer) (pi ri : Nat) : List FragRef :=
  match r.placeholders[pi]? with
  | none => []
  | some p =>
    ((List.range p.Fragments.length).filter
      (fun fi => ((p.Fragments[fi]?).map (fun f => f.Run == ri)).getD false)).map
      (fun fi => (pi, fi))

/-- placeholdersInRun (Go): placeholder indices owning a fragment in the
run — with multiplicity, because the source appends the placeholder once
per matching fragment (its `continue` only ends the inner iteration). -/
def placeholdersInRun (r : Replacer) (ri : Nat) : List Nat :=
  (List.range r.placeholders.length).flatMap (fun pi =>
    match r.placeholders[pi]? with
    | none => []
    | some p => (p.Fragments.filter (fun f => f.Run == ri)).map (fun _ => pi))

/-- fragmentsInRun (Go): for each placeholder returned by
`placeholdersInRun` (with multiplicity), all its fragments in the run. -/
def fragmentsInRun (r : Replacer) (ri : Nat) : List FragRef :=
  (placeholdersInRun r ri).flatMap (fun pi => fragRefsOfPlaceholderInRun r pi ri)

/-- fragmentsFromPosition (Go): all fragments whose run's `OpenTag.Start`
is at or beyond the given position (fragments whose run pointer does not
resolve — impossible in Go — are excluded). -/
def fragmentsFromPosition (r : Replacer) (startingFrom : Int) : List FragRef :=
  (List.range r.placeholders.length).flatMap (fun pi =>
    match r.placeholders[pi]? with
    | none => []
    | some p =>
      ((List.range p.Fragments.length).filter (fun fi =>
        (((p.Fragments[fi]?).bind (fun f => r.runs[f.Run]?)).map
          (fun run => decide (startingFrom ≤ run.OpenTag.Start))).getD false)).map
        (fun fi => (pi, fi)))

/-- Shift a fragment's relative span by `d` (the phase-a update of the
shift procedure). -/
def shiftFragPos (d : Int) (f : PlaceholderFragment) : PlaceholderFragment :=
  { f with Pos := ⟨f.Pos.Start + d, f.Pos.End + d⟩ }

/-- Phase 1 of shiftFollowingFragments: walk the shared-run fragment list;
fragments other than `fromRef` whose relative start is not before the
edited fragment's get their `Position` shifted by delta. -/
def shiftSameRunFrags (fromRef : FragRef) (d : Int) :
    List FragRef → Replacer → Option Replacer
  | [], r => some r
  | ref :: rest, r => do
    if ref = fromRef then
      shiftSameRunFrags fromRef d rest r
    else
      let fromFrag ← getFrag r fromRef
      let frag ← getFrag r ref
      if fromFrag.Pos.Start > frag.Pos.Start then
        shiftSameRunFrags fromRef d rest r
      else
        shiftSameRunFrags fromRef d rest (modifyFrag r ref (shiftFragPos d))

/-- The in-place removal loop over `followingFragments` (Go, lines
236-248).  Go ranges over the original slice header while `append`
shortens the slice in the same backing array, so the model tracks the
backing list and the logical length `m`; `none` models the slice-bounds
panic `followingFragments[i+1:]` when `i + 1 > m`. -/
def removeHandledLoop (handled : FragRef → Bool) :
    List Nat → List FragRef → Nat → Option (List FragRef)
  | [], backing, m => some (backing.take m)
  | i :: rest, backing, m =>
    match backing[i]? with
    | none => removeHandledLoop handled rest backing m
    | some frag =>
      if handled frag then
        if i + 1 > m then none
        else
          removeHandledLoop handled rest
            (backing.take i ++ ((backing.drop (i + 1)).take (m - 1 - i)) ++
              backing.drop (m - 1)) (m - 1)
      else removeHandledLoop handled rest backing m

/-- Phase 3 of shiftFollowingFragments: shift each distinct following run
once via `ShiftAll`. -/
def shiftLaterRuns (d : Int) :
    List FragRef → List Nat → Replacer → Option Replacer
  | [], _, r => some r
  | ref :: rest, modified, r => do
    let frag ← getFrag r ref
    if modified.contains frag.Run then
      shiftLaterRuns d rest modified r
    else
      shiftLaterRuns d rest (modified ++ [frag.Run])
        (modifyRun r frag.Run (shiftRunAll d))

/-- shiftFollowingFragments (Go): adjust every other tracked fragment/run
after an edit of `fromRef` by `deltaLength`. -/
def shiftFollowingFragments (r : Replacer) (fromRef : FragRef)
    (deltaLength : Int) : Option Replacer := do
  let fromFrag ← getFrag r fromRef
  let sharedRunFragments := fragmentsInRun r fromFrag.Run
  let r1 ← shiftSameRunFrags fromRef deltaLength sharedRunFragments r
  let fromFrag1 ← getFrag r1 fromRef
  let fromRun ← r1.runs[fromFrag1.Run]?
  let followingFragments := fragmentsFromPosition r1 fromRun.Text.OpenTag.End
  let remaining ← removeHandledLoop (fun ref => sharedRunFragments.contains ref)
    (List.range followingFragments.length) followingFragments
    followingFragments.length
  shiftLaterRuns deltaLength remaining [] r1

/-- replaceFragmentValue (Go): splice the value over the fragment's bytes,
apply `ShiftReplace`, bump the counters, then shift the following
fragments. -/
def replaceFragmentValue (r : Replacer) (ref : FragRef) (value : List Char) :
    Option Replacer := do
  let fragment ← getFrag r ref
  let run ← r.runs[fragment.Run]?
  let valueLength : Int := value.length
  let fragLength : Int := fragment.Pos.End - fragment.Pos.Start
  let deltaLength := valueLength - fragLength
  let cutStart := run.Text.OpenTag.End + fragment.Pos.Start
  let cutEnd := run.Text.OpenTag.End + fragment.Pos.End
  let docBytes ← spliceChk r.document cutStart cutEnd value
  let r := shiftReplaceOp r ref deltaLength
  let r := { r with
    document := docBytes
    ReplaceCount := r.ReplaceCount + 1
    BytesChanged := r.BytesChanged + deltaLength }
  shiftFollowingFragments r ref deltaLength

/-- cutFragment (Go): remove the fragment's bytes, apply `ShiftCut`,
update `BytesChanged`, then shift the following fragments. -/
def cutFragment (r : Replacer) (ref : FragRef) : Option Replacer := do
  let fragment ← getFrag r ref
  let run ← r.runs[fragment.Run]?
  let cutStart := run.Text.OpenTag.End + fragment.Pos.Start
  let cutEnd := run.Text.OpenTag.End + fragment.Pos.End
  let cutLength := fragment.Pos.End - fragment.Pos.Start
  let docBytes ← spliceChk r.document cutStart cutEnd []
  let r := shiftCutOp r ref cutLength
  let r := { r with
    document := docBytes
    BytesChanged := r.BytesChanged - cutLength }
  shiftFollowingFragments r ref (-cutLength)

/-- The inner fragment loop of `Replace`: cut fragments `1 .. n-1` of the
matched placeholder. -/
def cutLoop (pi : Nat) : List Nat → Replacer → Option Replacer
  | [], r => some r
  | fi :: rest, r => do
    let r' ← cutFragment r (pi, fi)
    cutLoop pi rest r'

/-- The placeholder loop of `Replace` (Go: `for i := 0; i < len(...)`).
The operations never add or remove placeholders or fragments, so the
index list is fixed up front; a vanished index (unreachable) is `none`. -/
def replaceLoop (key value : List Char) :
    List Nat → Replacer → Bool → Option (Replacer × Bool)
  | [], r, found => some (r, found)
  | pi :: rest, r, found => do
    let p ← r.placeholders[pi]?
    let t ← placeholderTextChk r.runs r.document p
    if t = key then do
      let r1 ← replaceFragmentValue r (pi, 0) value
      let r2 ← cutLoop pi ((List.range p.Fragments.length).drop 1) r1
      replaceLoop key value rest r2 true
    else
      replaceLoop key value rest r found

/-- The distinct run objects used by the post-replace validation. -/
def resolveDistinctRuns (r : Replacer) : Option (List Run) :=
  r.distinctRuns.mapM (fun ri => r.runs[ri]?)

/-- Run the validator over the replacer's distinct runs. -/
def validateReplacer (r : Replacer) : Option Bool := do
  let runsL ← resolveDistinctRuns r
  ValidatePositionsChk r.document runsL

/-- The error outcome of `Replace`: `ok` = nil, `notFound` =
`ErrPlaceholderNotFound`, `validationFailed` = the wrapped
`ErrTagsInvalid`. -/
inductive ReplaceResult where
  | ok
  | notFound
  | validationFailed
deriving Repr, DecidableEq

/-- Replacer.Replace (Go): normalize the key, substitute every matching
placeholder, then re-validate all distinct runs. -/
def Replace (r : Replacer) (key value : List Char) :
    Option (Replacer × ReplaceResult) := do
  let key' := normalizeKey key
  let tmpVal := escapeString value
  let (r1, found) ← replaceLoop key' tmpVal
    (List.range r.placeholders.length) r false
  let validOk ← validateReplacer r1
  if !validOk then
    pure (r1, .validationFailed)
  else if !found then
    pure (r1, .notFound)
  else
    pure (r1, .ok)

/-- A sequence of Replace calls, threading the (possibly error-returning)
state as a Go caller would; the flag is true iff no call in the sequence
returned the validation error. -/
def ReplaceSeq : Replacer → List (List Char × List Char) →
    Option (Replacer × Bool)
  | r, [] => some (r, true)
  | r, (k, v) :: rest => do
    let (r1, res) ← Replace r k v
    let (r2, flag) ← ReplaceSeq r1 rest
    pure (r2, flag && !(res == .validationFailed))

/-- getDistinctRuns (Go).  The source's `seen` helper compares the global
`runId` counter — not its parameter — against the recorded IDs, so the
global counter value is an explicit argument here. -/
def getDistinctRuns (runIdGlobal : Int) (arena : List Run)
    (ps : List Placeholder) : List Nat :=
  go (ps.flatMap Placeholder.Fragments) [] []
where
  go : List PlaceholderFragment → List Int → List Nat → List Nat
    | [], _, acc => acc
    | f :: fs, seenRuns, acc =>
      if seenRuns.contains runIdGlobal then go fs seenRuns acc
      else
        match arena[f.Run]? with
        | none => go fs seenRuns acc
        | some run => go fs (seenRuns ++ [run.ID]) (acc ++ [f.Run])

/-- NewReplacer (Go): counters start at zero, `distinctRuns` is computed
from the placeholders. -/
def NewReplacer (docBytes : List Char) (placeholder : List Placeholder)
    (arena : List Run) (runIdGlobal : Int) : Replacer :=
  { document := docBytes
    placeholders := placeholder
    runs := arena
    distinctRuns := getDistinctRuns runIdGlobal arena placeholder
    ReplaceCount := 0
    BytesChanged := 0 }

/-- Replacer.Bytes (Go): the current document bytes. -/
def Bytes (r : Replacer) : List Char := r.document

/-! ### Auxiliary predicates and concrete states used in the theorems -/

/-- Every placeholder's text resolves and differs from the (already
delimited) key: the key is absent from the parsed placeholder set. -/
def noMatch (r : Replacer) (key : List Char) : Bool :=
  r.placeholders.all (fun p =>
    match placeholderTextChk r.runs r.document p with
    | some t => !(t == key)
    | none => false)

/-- No placeholder owns two fragments inside the given run (true for
parser output: a run is visited once and contributes at most one fragment
to any single placeholder). -/
def atMostOnePerPlaceholderInRun (r : Replacer) (ri : Nat) : Bool :=
  r.placeholders.all (fun p =>
    (p.Fragments.filter (fun f => f.Run == ri)).length ≤ 1)

/-- The relative length of the fragment behind a reference (0 when the
reference does not resolve). -/
def fragLenD (r : Replacer) (ref : FragRef) : Int :=
  ((getFrag r ref).map (fun f => f.Pos.End - f.Pos.Start)).getD 0

/-- Document `<w:r><w:t>{a}</w:t></w:r>` (braces written via the
delimiter constants). -/
def docA : List Char :=
  "<w:r><w:t>".data ++ [OpenDelimiter, 'a', CloseDelimiter] ++
    "</w:t></w:r>".data

/-- The single run of `docA` as the locator produces it. -/
def runA : Run := ⟨1, ⟨0, 5⟩, ⟨19, 25⟩, ⟨⟨5, 10⟩, ⟨13, 19⟩⟩, true⟩

/-- The parsed placeholder set of `docA`. -/
def psA : List Placeholder := [⟨[⟨⟨0, 3⟩, 0, 0⟩]⟩]

/-- A replacer over `docA`. -/
def rA : Replacer := NewReplacer docA psA [runA] 1

/-- Document with a placeholder split across two runs:
`<w:r><w:t>{fo</w:t></w:r><w:r><w:t>o}</w:t></w:r>`. -/
def docB : List Char :=
  "<w:r><w:t>".data ++ [OpenDelimiter, 'f', 'o'] ++
    "</w:t></w:r><w:r><w:t>".data ++ ['o', CloseDelimiter] ++
    "</w:t></w:r>".data

/-- First run of `docB`. -/
def runB0 : Run := ⟨1, ⟨0, 5⟩, ⟨19, 25⟩, ⟨⟨5, 10⟩, ⟨13, 19⟩⟩, true⟩

/-- Second run of `docB`. -/
def runB1 : Run := ⟨2, ⟨25, 30⟩, ⟨43, 49⟩, ⟨⟨30, 35⟩, ⟨37, 43⟩⟩, true⟩

/-- The split placeholder of `docB` as parsed. -/
def phB : Placeholder := ⟨[⟨⟨0, 3⟩, 0, 0⟩, ⟨⟨0, 2⟩, 0, 1⟩]⟩

/-- A replacer over `docB`. -/
def rB : Replacer := NewReplacer docB [phB] [runB0, runB1] 2

/-- Document whose run text is `{a}b}` (more closes than opens, exactly
one close unpaired). -/
def docC : List Char :=
  "<w:r><w:t>".data ++
    [OpenDelimiter, 'a', CloseDelimiter, 'b', CloseDelimiter] ++
    "</w:t></w:r>".data

/-- The run of `docC`. -/
def runC : Run := ⟨1, ⟨0, 5⟩, ⟨21, 27⟩, ⟨⟨5, 10⟩, ⟨15, 21⟩⟩, true⟩

/-- Document whose run text is the nested pattern `{{}{`. -/
def docD : List Char :=
  "<w:r><w:t>".data ++
    [OpenDelimiter, OpenDelimiter, CloseDelimiter, OpenDelimiter] ++
    "</w:t></w:r>".data

/-- The run of `docD`. -/
def runD : Run := ⟨1, ⟨0, 5⟩, ⟨20, 26⟩, ⟨⟨5, 10⟩, ⟨14, 20⟩⟩, true⟩

/-- The state of `rB` after `shiftFollowingFragments` on the first
fragment with delta 5: run 1's four span pairs move by +5, run 0 is
untouched. -/
def rBshift : Replacer :=
  ⟨docB, [phB],
    [runB0, ⟨2, ⟨30, 35⟩, ⟨48, 54⟩, ⟨⟨35, 40⟩, ⟨42, 48⟩⟩, true⟩],
    [0, 1], 0, 0⟩

/-- The state of `rA` after replacing key `a` with value `Z`. -/
def rAafterZ : Replacer :=
  ⟨"<w:r><w:t>Z</w:t></w:r>".data, [⟨[⟨⟨0, 1⟩, 0, 0⟩]⟩],
    [⟨1, ⟨0, 5⟩, ⟨17, 23⟩, ⟨⟨5, 10⟩, ⟨11, 17⟩⟩, true⟩], [0], 1, -2⟩

/-- The state of `rA` after replacing key `a` with value `&` (the value is
spliced in HTML-escaped, as `&amp;`). -/
def rAafterAmp : Replacer :=
  ⟨"<w:r><w:t>&amp;</w:t></w:r>".data, [⟨[⟨⟨0, 5⟩, 0, 0⟩]⟩],
    [⟨1, ⟨0, 5⟩, ⟨21, 27⟩, ⟨⟨5, 10⟩, ⟨15, 21⟩⟩, true⟩], [0], 1, 2⟩

end GoDocx

deriving instance DecidableEq for Except

namespace GoDocx

/-! ## Basic lemmas -/

theorem listModify_getElem? {α : Type} (l : List α) (i j : Nat) (f : α → α) :
    (listModify l i f)[j]? = if i = j then (l[j]?).map f else l[j]? := by
  unfold listModify
  rw [List.getElem?_modify]
  cases h : l[j]? with
  | none => split <;> simp
  | some a => by_cases hij : i = j <;> simp [hij]

theorem getFrag_modifyRun (r : Replacer) (ri : Nat) (g : Run → Run)
    (ref : FragRef) : getFrag (modifyRun r ri g) ref = getFrag r ref := rfl

theorem getFrag_modifyFrag_eq (r : Replacer) (ref : FragRef)
    (g : PlaceholderFragment → PlaceholderFragment) :
    getFrag (modifyFrag r ref g) ref = (getFrag r ref).map g := by
  obtain ⟨a, b⟩ := ref
  unfold getFrag modifyFrag
  simp only [listModify_getElem?, if_pos rfl]
  cases h : r.placeholders[a]? with
  | none => simp
  | some p => simp [listModify_getElem?]

theorem getFrag_modifyFrag_ne (r : Replacer) (ref ref' : FragRef)
    (g : PlaceholderFragment → PlaceholderFragment) (h : ref ≠ ref') :
    getFrag (modifyFrag r ref g) ref' = getFrag r ref' := by
  obtain ⟨a, b⟩ := ref
  obtain ⟨c, d⟩ := ref'
  unfold getFrag modifyFrag
  simp only [listModify_getElem?]
  by_cases hac : a = c
  · subst hac
    have hbd : b ≠ d := by intro hb; exact h (by rw [hb])
    simp only [if_pos rfl]
    cases hp : r.placeholders[a]? with
    | none => simp
    | some p => simp [listModify_getElem?, hbd]
  · simp [hac]

theorem sliceChk_length (doc : List Char) (s e : Int) (out : List Char)
    (h : sliceChk doc s e = some out) :
    (out.length : Int) = e - s ∧ 0 ≤ s ∧ s ≤ e ∧ e ≤ (doc.length : Int) := by
  unfold sliceChk at h
  split at h
  · next hb =>
    obtain ⟨h0, hse, hel⟩ := hb
    obtain rfl := Option.some.inj h
    refine ⟨?_, h0, hse, hel⟩
    simp only [List.length_take, List.length_drop]
    omega
  · exact absurd h (by simp)

theorem spliceChk_length (doc : List Char) (s e : Int) (v out : List Char)
    (h : spliceChk doc s e v = some out) :
    (out.length : Int) = (doc.length : Int) + v.length - (e - s) ∧
      0 ≤ s ∧ s ≤ e ∧ e ≤ (doc.length : Int) ∧
      out = doc.take s.toNat ++ v ++ doc.drop e.toNat := by
  unfold spliceChk at h
  split at h
  · next hb =>
    obtain ⟨h0, hse, hel⟩ := hb
    obtain rfl := Option.some.inj h
    refine ⟨?_, h0, hse, hel, rfl⟩
    simp only [List.length_append, List.length_take, List.length_drop]
    omega
  · exact absurd h (by simp)

theorem shiftFragPos_zero (f : PlaceholderFragment) : shiftFragPos 0 f = f := by
  unfold shiftFragPos
  cases f with
  | mk pos num run => cases pos; simp

theorem shiftFragPos_comp (a b : Int) (f : PlaceholderFragment) :
    shiftFragPos a (shiftFragPos b f) = shiftFragPos (a + b) f := by
  unfold shiftFragPos
  cases f with
  | mk pos num run => cases pos; simp; constructor <;> ring

/-! ## HTML escaping lemmas -/

theorem escapeChar_of_not_special (c : Char) (h : isSpecialChar c = false) :
    escapeChar c = [c] := by
  unfold isSpecialChar at h
  unfold escapeChar
  simp only [Bool.or_eq_false_iff, decide_eq_false_iff_not] at h
  obtain ⟨⟨⟨⟨h1, h2⟩, h3⟩, h4⟩, h5⟩ := h
  simp [h1, h2, h3, h4, h5]

theorem escapeChar_length_of_special (c : Char) (h : isSpecialChar c = true) :
    2 ≤ (escapeChar c).length := by
  unfold isSpecialChar at h
  simp only [Bool.or_eq_true, decide_eq_true_eq] at h
  rcases h with ((((h | h) | h) | h) | h) <;> subst h <;> decide

theorem escapeChar_length_pos (c : Char) : 1 ≤ (escapeChar c).length := by
  unfold escapeChar
  split
  · simp
  · split
    · simp
    · split
      · simp
      · split
        · simp
        · split <;> simp

theorem escapeString_length_ge (v : List Char) :
    v.length ≤ (escapeString v).length := by
  induction v with
  | nil => simp [escapeString]
  | cons c t ih =>
    unfold escapeString at *
    simp only [List.flatMap_cons, List.length_append, List.length_cons]
    have := escapeChar_length_pos c
    omega

theorem escapeString_eq_of_no_special (v : List Char)
    (h : hasSpecialChar v = false) : escapeString v = v := by
  induction v with
  | nil => simp [escapeString]
  | cons c t ih =>
    unfold hasSpecialChar at *
    simp only [List.any_cons, Bool.or_eq_false_iff] at h
    unfold escapeString at *
    simp only [List.flatMap_cons]
    rw [escapeChar_of_not_special c h.1, ih h.2]
    rfl

theorem escapeString_length_gt (v : List Char) (h : hasSpecialChar v = true) :
    v.length < (escapeString v).length := by
  induction v with
  | nil => simp [hasSpecialChar] at h
  | cons c t ih =>
    unfold hasSpecialChar at *
    simp only [List.any_cons, Bool.or_eq_true] at h
    unfold escapeString at *
    simp only [List.flatMap_cons, List.length_append, List.length_cons]
    rcases h with h | h
    · have h2 := escapeChar_length_of_special c h
      have h3 := escapeString_length_ge t
      unfold escapeString at h3
      omega
    · have h2 := escapeChar_length_pos c
      have h3 := ih h
      omega

theorem escapeString_ne_of_special (v : List Char) (h : hasSpecialChar v = true) :
    escapeString v ≠ v := by
  intro heq
  have := escapeString_length_gt v h
  rw [heq] at this
  omega

/-! ## C9: key auto-wrapping -/

theorem isDelimited_contains (k : List Char) (h : IsDelimitedPlaceholder k = true) :
    k.contains OpenDelimiter = true ∧ k.contains CloseDelimiter = true := by
  match k with
  | [] => simp [IsDelimitedPlaceholder] at h
  | c :: rest =>
    unfold IsDelimitedPlaceholder at h
    simp only [Bool.and_eq_true, decide_eq_true_eq] at h
    obtain ⟨h1, h2⟩ := h
    constructor
    · exact List.elem_eq_true_of_mem (by simp [← h1])
    · refine List.elem_eq_true_of_mem ?_
      have := List.getLast_mem (l := c :: rest) (by simp)
      rwa [h2] at this

/-- C9 counterexample: the key `}{` is not wrapped in the delimiters
(its first character is not the open delimiter), yet `Replace`'s key
normalization leaves it unchanged instead of wrapping it, because it
contains both delimiter characters somewhere. -/
theorem claim_C9_counterexample :
    IsDelimitedPlaceholder [CloseDelimiter, OpenDelimiter] = false ∧
    normalizeKey [CloseDelimiter, OpenDelimiter] =
      [CloseDelimiter, OpenDelimiter] ∧
    [CloseDelimiter, OpenDelimiter] ≠
      OpenDelimiter :: [CloseDelimiter, OpenDelimiter] ++ [CloseDelimiter] := by
  decide

/-- C9 (amended): a key that lacks the open delimiter or lacks the close
delimiter somewhere in it is wrapped with the delimiters before the
lookup; a key containing both delimiter characters is used as-is. -/
theorem claim_C9_amended (k : List Char) :
    (¬(k.contains OpenDelimiter = true ∧ k.contains CloseDelimiter = true) →
      normalizeKey k = OpenDelimiter :: k ++ [CloseDelimiter]) ∧
    (k.contains OpenDelimiter = true ∧ k.contains CloseDelimiter = true →
      normalizeKey k = k) := by
  constructor
  · intro hnot
    have hcond : (!k.contains OpenDelimiter || !k.contains CloseDelimiter) = true := by
      cases h1 : k.contains OpenDelimiter with
      | false => rfl
      | true =>
        cases h2 : k.contains CloseDelimiter with
        | false => rfl
        | true => exact absurd ⟨h1, h2⟩ hnot
    have hdel : IsDelimitedPlaceholder k = false := by
      by_cases h : IsDelimitedPlaceholder k = true
      · exact absurd (isDelimited_contains k h) hnot
      · exact Bool.eq_false_iff.mpr h
    have step1 : normalizeKey k = AddPlaceholderDelimiter k := by
      unfold normalizeKey
      rw [hcond]
      rfl
    rw [step1]
    unfold AddPlaceholderDelimiter
    rw [hdel]
    rfl
  · intro ⟨h1, h2⟩
    unfold normalizeKey
    rw [h1, h2]
    rfl

/-- C9 witness: the bare key `a` is wrapped to the delimited `{a}`. -/
theorem claim_C9_witness :
    normalizeKey ['a'] = OpenDelimiter :: ['a'] ++ [CloseDelimiter] :=
  (claim_C9_amended ['a']).1 (by decide)

/-! ## C8: nested pattern handling panics -/

/-- C8: the run text `{{}{` contains a nested pattern (the second open
delimiter, at index 1, precedes the first close delimiter, at index 2),
yet `ParsePlaceholders` neither skips the run nor returns: it evaluates
`closePos[1]` with only one close position recorded and panics with an
index-out-of-range error (modelled as `none`). -/
theorem claim_C8 :
    runD.GetTextChk docD =
      some [OpenDelimiter, OpenDelimiter, CloseDelimiter, OpenDelimiter] ∧
    indicesOf OpenDelimiter
      [OpenDelimiter, OpenDelimiter, CloseDelimiter, OpenDelimiter] = [0, 1, 3] ∧
    indicesOf CloseDelimiter
      [OpenDelimiter, OpenDelimiter, CloseDelimiter, OpenDelimiter] = [2] ∧
    ParsePlaceholders [runD] docD = none := by
  decide

/-! ## C7: more closes than opens -/

/-- C7 counterexample: the single run text `{a}b}` has one open and two
close delimiters, so exactly one close is left unpaired after assembling
the full pair, and no placeholder is pending — but `ParsePlaceholders`
returns no StructuralParseError: it succeeds, silently dropping the
unpaired close and keeping the assembled pair. -/
theorem claim_C7_counterexample :
    runC.GetTextChk docC =
      some [OpenDelimiter, 'a', CloseDelimiter, 'b', CloseDelimiter] ∧
    (indicesOf OpenDelimiter
      [OpenDelimiter, 'a', CloseDelimiter, 'b', CloseDelimiter]).length = 1 ∧
    (indicesOf CloseDelimiter
      [OpenDelimiter, 'a', CloseDelimiter, 'b', CloseDelimiter]).length = 2 ∧
    ParsePlaceholders [runC] docC =
      some (.ok [⟨[⟨⟨0, 3⟩, 0, 0⟩]⟩]) := by
  decide

theorem assembleChk_some (ri : Nat) :
    ∀ (os cs : List Nat), os.length ≤ cs.length →
      ∃ ps, assembleFullPlaceholdersChk ri os cs = some ps := by
  intro os
  induction os with
  | nil => intro cs _; exact ⟨[], rfl⟩
  | cons o os' ih =>
    intro cs hlen
    match cs with
    | [] => simp at hlen
    | c :: cs' =>
      obtain ⟨rest, hr⟩ := ih cs' (by simpa using hlen)
      exact ⟨⟨[⟨⟨(o : Int), (c : Int) + 1⟩, 0, ri⟩]⟩ :: rest,
        by simp [assembleFullPlaceholdersChk, hr]⟩

/-- C7 (amended): for a run with more closes than opens the parser step
never returns a StructuralParseError: it assembles the pairs obtained by
matching the i-th open with the i-th close (the last close excluded), and
only when the run has exactly one close (hence zero opens) does it close
the pending placeholder — without requiring `isOpen` — with the run text
from its start through that close inclusive, emit it and clear the
pending state; otherwise the unpaired closes are silently dropped and the
pending state is left unchanged. -/
theorem claim_C7_amended (doc : List Char) (ri : Nat) (run : Run)
    (st : ParseState) (runText : List Char)
    (hText : run.GetTextChk doc = some runText)
    (hMore : (indicesOf OpenDelimiter runText).length <
      (indicesOf CloseDelimiter runText).length) :
    ∃ ps, assembleFullPlaceholdersChk ri (indicesOf OpenDelimiter runText)
        ((indicesOf CloseDelimiter runText).dropLast) = some ps ∧
      (∀ c0, indicesOf CloseDelimiter runText = [c0] →
        parseRunStep doc ri run st = some (.ok ⟨[], false,
          st.acc ++ ps ++
            [⟨st.pendingFrags ++ [⟨⟨0, (c0 : Int) + 1⟩, 0, ri⟩]⟩]⟩)) ∧
      ((indicesOf CloseDelimiter runText).length ≠ 1 →
        parseRunStep doc ri run st =
          some (.ok ⟨st.pendingFrags, st.hasOpen, st.acc ++ ps⟩)) := by
  obtain ⟨ps, hps⟩ := assembleChk_some ri (indicesOf OpenDelimiter runText)
    ((indicesOf CloseDelimiter runText).dropLast)
    (by rw [List.length_dropLast]; omega)
  refine ⟨ps, hps, ?_, ?_⟩
  · intro c0 hc0
    have hc1 : (indicesOf CloseDelimiter runText).length = 1 := by
      rw [hc0]
      rfl
    unfold parseRunStep
    rw [hText]
    show (Option.bind (some runText) _) = _
    rw [Option.some_bind]
    rw [if_neg (by omega), if_neg (by omega), if_pos hMore]
    show (Option.bind (assembleFullPlaceholdersChk ri
      (indicesOf OpenDelimiter runText)
      ((indicesOf CloseDelimiter runText).dropLast)) _) = _
    rw [hps, Option.some_bind]
    rw [dif_pos hc1]
    simp [hc0]
  · intro hne
    unfold parseRunStep
    rw [hText]
    show (Option.bind (some runText) _) = _
    rw [Option.some_bind]
    rw [if_neg (by omega), if_neg (by omega), if_pos hMore]
    show (Option.bind (assembleFullPlaceholdersChk ri
      (indicesOf OpenDelimiter runText)
      ((indicesOf CloseDelimiter runText).dropLast)) _) = _
    rw [hps, Option.some_bind]
    rw [dif_neg hne]
    rfl

/-- C7 witness: instantiating the amended claim on the concrete run text
`{a}b}` (one open, two closes) of `docC`. -/
theorem claim_C7_witness :
    ∃ ps, assembleFullPlaceholdersChk 0
        (indicesOf OpenDelimiter
          [OpenDelimiter, 'a', CloseDelimiter, 'b', CloseDelimiter])
        ((indicesOf CloseDelimiter
          [OpenDelimiter, 'a', CloseDelimiter, 'b', CloseDelimiter]).dropLast) =
          some ps ∧
      (∀ c0, indicesOf CloseDelimiter
          [OpenDelimiter, 'a', CloseDelimiter, 'b', CloseDelimiter] = [c0] →
        parseRunStep docC 0 runC ⟨[], false, []⟩ = some (.ok ⟨[], false,
          [] ++ ps ++ [⟨[] ++ [⟨⟨0, (c0 : Int) + 1⟩, 0, 0⟩]⟩]⟩)) ∧
      ((indicesOf CloseDelimiter
          [OpenDelimiter, 'a', CloseDelimiter, 'b', CloseDelimiter]).length ≠ 1 →
        parseRunStep docC 0 runC ⟨[], false, []⟩ =
          some (.ok ⟨[], false, [] ++ ps⟩)) :=
  claim_C7_amended docC 0 runC ⟨[], false, []⟩
    [OpenDelimiter, 'a', CloseDelimiter, 'b', CloseDelimiter]
    (by decide) (by decide)

/-! ## C6: placeholder round-trip -/

/-- C6 counterexample: the split placeholder of `docB` assembles to
`{foo}`, but the original delimited region of the buffer, from the
placeholder's absolute `StartPos` to its `EndPos`, is the 27-byte
substring that still contains the markup between the two runs — the
assembled text does not equal that substring. -/
theorem claim_C6_counterexample :
    ParsePlaceholders [runB0, runB1] docB = some (.ok [phB]) ∧
    placeholderTextChk [runB0, runB1] docB phB =
      some ([OpenDelimiter, 'f', 'o', 'o', CloseDelimiter]) ∧
    placeholderStartPos [runB0, runB1] phB = some 10 ∧
    placeholderEndPos [runB0, runB1] phB = some 37 ∧
    sliceChk docB 10 37 =
      some ([OpenDelimiter, 'f', 'o'] ++ "</w:t></w:r><w:r><w:t>".data ++
        ['o', CloseDelimiter]) ∧
    ([OpenDelimiter, 'f', 'o', 'o', CloseDelimiter] : List Char) ≠
      [OpenDelimiter, 'f', 'o'] ++ "</w:t></w:r><w:r><w:t>".data ++
        ['o', CloseDelimiter] := by
  decide

theorem validFilter_mem (arena : List Run) (doc : List Char) :
    ∀ (l out : List Placeholder), validFilterChk arena doc l = some out →
      ∀ p ∈ out, ∃ t, placeholderTextChk arena doc p = some t ∧
        t.contains OpenDelimiter = true ∧ t.contains CloseDelimiter = true := by
  intro l
  induction l with
  | nil =>
    intro out h p hp
    unfold validFilterChk at h
    obtain rfl := Option.some.inj h
    simp at hp
  | cons q rest ih =>
    intro out h p hp
    unfold validFilterChk at h
    split at h
    · exact ih out h p hp
    · rw [Option.bind_eq_bind] at h
      obtain ⟨tq, htq, h2⟩ := Option.bind_eq_some.mp h
      obtain ⟨restOut, hrest, h3⟩ := Option.bind_eq_some.mp h2
      obtain rfl := Option.some.inj h3
      by_cases hkeep :
          (tq.contains OpenDelimiter && tq.contains CloseDelimiter) = true
      · rw [if_pos hkeep] at hp
        rcases List.mem_cons.mp hp with rfl | hp'
        · exact ⟨tq, htq, by
            have := Bool.and_eq_true_iff.mp hkeep
            exact this.1, by
            have := Bool.and_eq_true_iff.mp hkeep
            exact this.2⟩
        · exact ih restOut hrest p hp'
      · rw [if_neg hkeep] at hp
        exact ih restOut hrest p hp

/-- C6 (amended): every placeholder returned by the parser has an
assembled text that contains both delimiters, and for a single-fragment
placeholder that text equals the original delimited substring of the
unmodified buffer between the placeholder's absolute start and end
positions; a placeholder split across runs assembles the concatenation of
its per-run slices, which is not a contiguous substring of the buffer. -/
theorem claim_C6_amended (runs : List Run) (doc : List Char)
    (out : List Placeholder) (p : Placeholder)
    (hparse : ParsePlaceholders runs doc = some (.ok out)) (hmem : p ∈ out) :
    ∃ t, placeholderTextChk runs doc p = some t ∧
      t.contains OpenDelimiter = true ∧ t.contains CloseDelimiter = true ∧
      (∀ f, p.Fragments = [f] →
        ∃ s e, placeholderStartPos runs p = some s ∧
          placeholderEndPos runs p = some e ∧ sliceChk doc s e = some t) := by
  have hfilter : ∃ acc, validFilterChk runs doc acc = some out := by
    unfold ParsePlaceholders at hparse
    rw [Option.bind_eq_bind] at hparse
    obtain ⟨res, hres, h2⟩ := Option.bind_eq_some.mp hparse
    match res with
    | .error e => simp at h2
    | .ok st =>
      rw [Option.bind_eq_bind] at h2
      obtain ⟨out', hout', h3⟩ := Option.bind_eq_some.mp h2
      obtain rfl : out' = out := by
        have := Option.some.inj h3
        exact (Except.ok.inj this)
      exact ⟨st.acc, hout'⟩
  obtain ⟨acc, hacc⟩ := hfilter
  obtain ⟨t, ht, hopen, hclose⟩ := validFilter_mem runs doc acc out hacc p hmem
  refine ⟨t, ht, hopen, hclose, ?_⟩
  intro f hf
  unfold placeholderTextChk at ht
  rw [hf] at ht
  unfold placeholderTextChk.go at ht
  rw [Option.bind_eq_bind] at ht
  obtain ⟨part, hpart, h2⟩ := Option.bind_eq_some.mp ht
  obtain rfl : part = t := by
    unfold placeholderTextChk.go at h2
    simpa using h2
  unfold fragSliceChk at hpart
  rw [Option.bind_eq_bind] at hpart
  obtain ⟨run, hrun, hslice⟩ := Option.bind_eq_some.mp hpart
  refine ⟨run.Text.OpenTag.End + f.Pos.Start, run.Text.OpenTag.End + f.Pos.End,
    ?_, ?_, ?_⟩
  · unfold placeholderStartPos fragStartPos
    rw [hf]
    simp [hrun]
  · unfold placeholderEndPos fragEndPos
    rw [hf]
    simp [hrun]
  · simpa using hslice

/-- C6 witness: the single-fragment placeholder parsed from `docA`. -/
theorem claim_C6_witness :
    ∃ t, placeholderTextChk [runA] docA ⟨[⟨⟨0, 3⟩, 0, 0⟩]⟩ = some t ∧
      t.contains OpenDelimiter = true ∧ t.contains CloseDelimiter = true ∧
      (∀ f, (⟨[⟨⟨0, 3⟩, 0, 0⟩]⟩ : Placeholder).Fragments = [f] →
        ∃ s e, placeholderStartPos [runA] ⟨[⟨⟨0, 3⟩, 0, 0⟩]⟩ = some s ∧
          placeholderEndPos [runA] ⟨[⟨⟨0, 3⟩, 0, 0⟩]⟩ = some e ∧
          sliceChk docA s e = some t) :=
  claim_C6_amended [runA] docA [⟨[⟨⟨0, 3⟩, 0, 0⟩]⟩] ⟨[⟨⟨0, 3⟩, 0, 0⟩]⟩
    (by decide) (by decide)

/-! ## C3: key not found -/

theorem replaceLoop_noMatch (key value : List Char) (r : Replacer)
    (hnm : noMatch r key = true) :
    ∀ (idxs : List Nat), (∀ pi ∈ idxs, pi < r.placeholders.length) →
      ∀ found, replaceLoop key value idxs r found = some (r, found) := by
  intro idxs
  induction idxs with
  | nil => intro _ found; rfl
  | cons pi rest ih =>
    intro hlt found
    have hpi : pi < r.placeholders.length := hlt pi (by simp)
    unfold replaceLoop
    obtain ⟨p, hp⟩ : ∃ p, r.placeholders[pi]? = some p :=
      ⟨r.placeholders[pi], List.getElem?_eq_getElem hpi⟩
    rw [Option.bind_eq_bind, hp, Option.some_bind]
    have hmem : p ∈ r.placeholders := by
      have := List.getElem?_eq_some_iff.mp hp
      obtain ⟨h, rfl⟩ := this
      exact List.getElem_mem h
    have hprop := List.all_eq_true.mp hnm p hmem
    cases htx : placeholderTextChk r.runs r.document p with
    | none => rw [htx] at hprop; simp at hprop
    | some t =>
      rw [htx] at hprop
      simp only [Bool.not_eq_true'] at hprop
      have hne : ¬(t = key) := by
        intro he
        rw [he] at hprop
        simp at hprop
      rw [Option.bind_eq_bind, Option.some_bind]
      rw [if_neg hne]
      exact ih (fun x hx => hlt x (by simp [hx])) found

/-- C3: if the delimited form of the key matches no placeholder in the
parsed set (and the document still validates, as it does right after
parsing), `Replace` returns the NotFoundError and leaves the entire
replacer — document bytes and `ReplaceCount` included — unchanged. -/
theorem claim_C3 (r : Replacer) (key value : List Char)
    (hnm : noMatch r (normalizeKey key) = true)
    (hval : validateReplacer r = some true) :
    Replace r key value = some (r, .notFound) := by
  unfold Replace
  show (Option.bind (replaceLoop (normalizeKey key) (escapeString value)
    (List.range r.placeholders.length) r false) _) = _
  rw [replaceLoop_noMatch (normalizeKey key) (escapeString value) r hnm
    (List.range r.placeholders.length) (by simp) false]
  rw [Option.some_bind]
  show (Option.bind (validateReplacer r) _) = _
  rw [hval, Option.some_bind]
  rfl

/-- C3 witness: replacing the absent key `zz` in `docA`. -/
theorem claim_C3_witness :
    Replace rA ['z', 'z'] ['X'] = some (rA, .notFound) :=
  claim_C3 rA ['z', 'z'] ['X'] (by decide) (by decide)

/-! ## C4: the validator passes after replacing -/

theorem replace_validates (r : Replacer) (k v : List Char) (r' : Replacer)
    (res : ReplaceResult) (h : Replace r k v = some (r', res))
    (hres : res ≠ .validationFailed) : validateReplacer r' = some true := by
  unfold Replace at h
  rw [Option.bind_eq_bind] at h
  obtain ⟨⟨r1, found⟩, hloop, h2⟩ := Option.bind_eq_some.mp h
  rw [Option.bind_eq_bind] at h2
  obtain ⟨b, hb, h3⟩ := Option.bind_eq_some.mp h2
  cases b with
  | false =>
    rw [if_pos (show (!false) = true from rfl)] at h3
    obtain h := Option.some.inj h3
    exact absurd ((Prod.mk.injEq _ _ _ _).mp h).2.symm hres
  | true =>
    have hr1 : r' = r1 := by
      rw [if_neg (by simp)] at h3
      split at h3 <;>
        exact (((Prod.mk.injEq _ _ _ _).mp (Option.some.inj h3)).1).symm
    rw [hr1]
    exact hb

/-- C4: after any sequence of `Replace` calls in which no call reported
the validation error (the initial parsed state validating), the position
validator still passes over the tracked distinct-run set. -/
theorem claim_C4 (r : Replacer) (calls : List (List Char × List Char))
    (r' : Replacer) (hinit : validateReplacer r = some true)
    (hseq : ReplaceSeq r calls = some (r', true)) :
    validateReplacer r' = some true := by
  induction calls generalizing r with
  | nil =>
    unfold ReplaceSeq at hseq
    obtain h := Option.some.inj hseq
    rw [← ((Prod.mk.injEq _ _ _ _).mp h).1]
    exact hinit
  | cons c rest ih =>
    obtain ⟨k, v⟩ := c
    unfold ReplaceSeq at hseq
    rw [Option.bind_eq_bind] at hseq
    obtain ⟨⟨r1, res⟩, hcall, h2⟩ := Option.bind_eq_some.mp hseq
    rw [Option.bind_eq_bind] at h2
    obtain ⟨⟨r2, flag⟩, hrest, h3⟩ := Option.bind_eq_some.mp h2
    obtain h4 := Option.some.inj h3
    have hr2 : r2 = r' := ((Prod.mk.injEq _ _ _ _).mp h4).1
    have hflag : (flag && !(res == .validationFailed)) = true :=
      ((Prod.mk.injEq _ _ _ _).mp h4).2
    have hres : res ≠ .validationFailed := by
      intro he
      rw [he] at hflag
      simp at hflag
    have hflag' : flag = true := (Bool.and_eq_true_iff.mp hflag).1
    have hv1 : validateReplacer r1 = some true :=
      replace_validates r k v r1 res hcall hres
    exact ih r1 hv1 (by rw [hrest, hflag', hr2])

/-- C4 witness: after the successful call `Replace("a", "Z")` on `docA`
the validator still passes. -/
theorem claim_C4_witness : validateReplacer rAafterZ = some true :=
  claim_C4 rA [(['a'], ['Z'])] rAafterZ (by decide) (by decide)

/-! ## State-preservation lemmas for the replacement engine -/

theorem modifyFrag_fields (r : Replacer) (ref : FragRef)
    (g : PlaceholderFragment → PlaceholderFragment) :
    (modifyFrag r ref g).document = r.document ∧
    (modifyFrag r ref g).runs = r.runs ∧
    (modifyFrag r ref g).ReplaceCount = r.ReplaceCount ∧
    (modifyFrag r ref g).BytesChanged = r.BytesChanged ∧
    (modifyFrag r ref g).distinctRuns = r.distinctRuns :=
  ⟨rfl, rfl, rfl, rfl, rfl⟩

theorem modifyRun_fields (r : Replacer) (ri : Nat) (g : Run → Run) :
    (modifyRun r ri g).document = r.document ∧
    (modifyRun r ri g).placeholders = r.placeholders ∧
    (modifyRun r ri g).ReplaceCount = r.ReplaceCount ∧
    (modifyRun r ri g).BytesChanged = r.BytesChanged ∧
    (modifyRun r ri g).distinctRuns = r.distinctRuns :=
  ⟨rfl, rfl, rfl, rfl, rfl⟩

theorem getFrag_eq_of_placeholders (r r' : Replacer)
    (h : r'.placeholders = r.placeholders) (ref : FragRef) :
    getFrag r' ref = getFrag r ref := by
  unfold getFrag
  rw [h]

theorem shiftFragPos_len (c : Int) (f : PlaceholderFragment) :
    (shiftFragPos c f).Pos.End - (shiftFragPos c f).Pos.Start =
      f.Pos.End - f.Pos.Start := by
  show (f.Pos.End + c) - (f.Pos.Start + c) = f.Pos.End - f.Pos.Start
  ring

theorem fragLenD_of_shifted (r r' : Replacer) (ref : FragRef) (c : Int)
    (h : getFrag r' ref = (getFrag r ref).map (shiftFragPos c)) :
    fragLenD r' ref = fragLenD r ref := by
  unfold fragLenD
  rw [h]
  cases getFrag r ref with
  | none => rfl
  | some f => simp [shiftFragPos_len]

theorem shiftSameRunFrags_state (fromRef : FragRef) (d : Int) :
    ∀ (refs : List FragRef) (r r1 : Replacer),
      shiftSameRunFrags fromRef d refs r = some r1 →
      r1.document = r.document ∧ r1.runs = r.runs ∧
      r1.ReplaceCount = r.ReplaceCount ∧ r1.BytesChanged = r.BytesChanged ∧
      r1.distinctRuns = r.distinctRuns ∧
      ∀ ref, ∃ c : Int, getFrag r1 ref = (getFrag r ref).map (shiftFragPos c) := by
  intro refs
  induction refs with
  | nil =>
    intro r r1 h
    have h' : some r = some r1 := h
    obtain rfl := Option.some.inj h'
    refine ⟨rfl, rfl, rfl, rfl, rfl, fun ref => ⟨0, ?_⟩⟩
    cases hg : getFrag r ref <;> simp [hg, shiftFragPos_zero]
  | cons ref rest ih =>
    intro r r1 h
    unfold shiftSameRunFrags at h
    by_cases he : ref = fromRef
    · rw [if_pos he] at h
      exact ih r r1 h
    · rw [if_neg he] at h
      obtain ⟨fromFrag, hff, h2⟩ := Option.bind_eq_some.mp h
      obtain ⟨frag, hfr, h3⟩ := Option.bind_eq_some.mp h2
      split at h3
      · exact ih r r1 h3
      · obtain ⟨hd, hr, hrc, hbc, hdr, hshift⟩ :=
          ih (modifyFrag r ref (shiftFragPos d)) r1 h3
        refine ⟨hd, hr, hrc, hbc, hdr, ?_⟩
        intro ref'
        obtain ⟨c, hc⟩ := hshift ref'
        by_cases heq : ref = ref'
        · subst heq
          rw [getFrag_modifyFrag_eq] at hc
          exact ⟨c + d, by
            rw [hc, Option.map_map]
            cases getFrag r ref <;> simp [Function.comp, shiftFragPos_comp]⟩
        · rw [getFrag_modifyFrag_ne r ref ref' _ heq] at hc
          exact ⟨c, hc⟩

theorem shiftLaterRuns_state (d : Int) :
    ∀ (refs : List FragRef) (mods : List Nat) (r r1 : Replacer),
      shiftLaterRuns d refs mods r = some r1 →
      r1.document = r.document ∧ r1.placeholders = r.placeholders ∧
      r1.ReplaceCount = r.ReplaceCount ∧ r1.BytesChanged = r.BytesChanged ∧
      r1.distinctRuns = r.distinctRuns := by
  intro refs
  induction refs with
  | nil =>
    intro mods r r1 h
    obtain rfl := Option.some.inj h
    exact ⟨rfl, rfl, rfl, rfl, rfl⟩
  | cons ref rest ih =>
    intro mods r r1 h
    unfold shiftLaterRuns at h
    obtain ⟨frag, hfr, h2⟩ := Option.bind_eq_some.mp h
    split at h2
    · exact ih mods r r1 h2
    · obtain ⟨hd, hp, hrc, hbc, hdr⟩ :=
        ih (mods ++ [frag.Run]) (modifyRun r frag.Run (shiftRunAll d)) r1 h2
      exact ⟨hd, hp, hrc, hbc, hdr⟩

theorem removeHandledLoop_id (handled : FragRef → Bool) :
    ∀ (idxs : List Nat) (backing : List FragRef) (m : Nat),
      (∀ x ∈ backing, handled x = false) →
      removeHandledLoop handled idxs backing m = some (backing.take m) := by
  intro idxs
  induction idxs with
  | nil => intro backing m _; rfl
  | cons i rest ih =>
    intro backing m hnone
    unfold removeHandledLoop
    cases hb : backing[i]? with
    | none => exact ih backing m hnone
    | some frag =>
      have hfalse : handled frag = false := by
        have hmem : frag ∈ backing := by
          have := List.getElem?_eq_some_iff.mp hb
          obtain ⟨hlt, rfl⟩ := this
          exact List.getElem_mem hlt
        exact hnone frag hmem
      simp only [Option.some.injEq]
      rw [if_neg (by rw [hfalse]; exact Bool.false_ne_true)]
      have := ih backing m hnone
      simpa using this

theorem shiftFollowing_state (r : Replacer) (fromRef : FragRef) (d : Int)
    (r1 : Replacer) (h : shiftFollowingFragments r fromRef d = some r1) :
    r1.document = r.document ∧ r1.ReplaceCount = r.ReplaceCount ∧
    r1.BytesChanged = r.BytesChanged ∧ r1.distinctRuns = r.distinctRuns ∧
    ∀ ref, ∃ c : Int, getFrag r1 ref = (getFrag r ref).map (shiftFragPos c) := by
  unfold shiftFollowingFragments at h
  obtain ⟨fromFrag, hff, h2⟩ := Option.bind_eq_some.mp h
  obtain ⟨rMid, hmid, h3⟩ := Option.bind_eq_some.mp h2
  obtain ⟨fromFrag1, hff1, h4⟩ := Option.bind_eq_some.mp h3
  obtain ⟨fromRun, hfr, h5⟩ := Option.bind_eq_some.mp h4
  obtain ⟨remaining, hrem, h6⟩ := Option.bind_eq_some.mp h5
  obtain ⟨hd1, hr1, hrc1, hbc1, hdr1, hshift1⟩ :=
    shiftSameRunFrags_state fromRef d _ r rMid hmid
  obtain ⟨hd2, hp2, hrc2, hbc2, hdr2⟩ :=
    shiftLaterRuns_state d remaining [] rMid r1 h6
  refine ⟨by rw [hd2, hd1], by rw [hrc2, hrc1], by rw [hbc2, hbc1],
    by rw [hdr2, hdr1], ?_⟩
  intro ref
  obtain ⟨c, hc⟩ := hshift1 ref
  have hgf : getFrag r1 ref = getFrag rMid ref := by
    unfold getFrag
    rw [hp2]
  exact ⟨c, by rw [hgf, hc]⟩

theorem shiftReplaceOp_fields (r : Replacer) (ref : FragRef) (d : Int) :
    (shiftReplaceOp r ref d).document = r.document ∧
    (shiftReplaceOp r ref d).ReplaceCount = r.ReplaceCount ∧
    (shiftReplaceOp r ref d).BytesChanged = r.BytesChanged ∧
    (shiftReplaceOp r ref d).distinctRuns = r.distinctRuns := by
  unfold shiftReplaceOp
  split <;> exact ⟨rfl, rfl, rfl, rfl⟩

theorem getFrag_shiftReplaceOp_ne (r : Replacer) (ref ref' : FragRef)
    (d : Int) (h : ref' ≠ ref) :
    getFrag (shiftReplaceOp r ref d) ref' = getFrag r ref' := by
  unfold shiftReplaceOp
  split
  · rfl
  · rw [getFrag_modifyFrag_ne _ ref ref' _ (fun he => h he.symm)]
    rfl

theorem shiftCutOp_fields (r : Replacer) (ref : FragRef) (c : Int) :
    (shiftCutOp r ref c).document = r.document ∧
    (shiftCutOp r ref c).ReplaceCount = r.ReplaceCount ∧
    (shiftCutOp r ref c).BytesChanged = r.BytesChanged ∧
    (shiftCutOp r ref c).distinctRuns = r.distinctRuns := by
  unfold shiftCutOp
  split <;> exact ⟨rfl, rfl, rfl, rfl⟩

theorem getFrag_shiftCutOp_ne (r : Replacer) (ref ref' : FragRef)
    (c : Int) (h : ref' ≠ ref) :
    getFrag (shiftCutOp r ref c) ref' = getFrag r ref' := by
  unfold shiftCutOp
  split
  · rfl
  · rw [getFrag_modifyFrag_ne _ ref ref' _ (fun he => h he.symm)]
    rfl

theorem replaceFragmentValue_spec (r : Replacer) (ref : FragRef)
    (v : List Char) (r2 : Replacer)
    (h : replaceFragmentValue r ref v = some r2) :
    ∃ frag run, getFrag r ref = some frag ∧ r.runs[frag.Run]? = some run ∧
      (r2.document.length : Int) =
        (r.document.length : Int) + v.length -
          (frag.Pos.End - frag.Pos.Start) ∧
      r2.ReplaceCount = r.ReplaceCount + 1 ∧
      r2.BytesChanged = r.BytesChanged +
        ((v.length : Int) - (frag.Pos.End - frag.Pos.Start)) ∧
      r2.distinctRuns = r.distinctRuns ∧
      (∀ ref', ref' ≠ ref → fragLenD r2 ref' = fragLenD r ref') := by
  unfold replaceFragmentValue at h
  obtain ⟨frag, hfr, h2⟩ := Option.bind_eq_some.mp h
  obtain ⟨run, hrun, h3⟩ := Option.bind_eq_some.mp h2
  obtain ⟨docBytes, hsplice, h4⟩ := Option.bind_eq_some.mp h3
  obtain ⟨hslen, _, _, _, _⟩ := spliceChk_length _ _ _ _ _ hsplice
  set rMid : Replacer :=
    { shiftReplaceOp r ref (↑v.length - (frag.Pos.End - frag.Pos.Start)) with
      document := docBytes
      ReplaceCount :=
        (shiftReplaceOp r ref
          (↑v.length - (frag.Pos.End - frag.Pos.Start))).ReplaceCount + 1
      BytesChanged :=
        (shiftReplaceOp r ref
          (↑v.length - (frag.Pos.End - frag.Pos.Start))).BytesChanged +
          (↑v.length - (frag.Pos.End - frag.Pos.Start)) } with hrMid
  have h4' : shiftFollowingFragments rMid ref
      (↑v.length - (frag.Pos.End - frag.Pos.Start)) = some r2 := h4
  obtain ⟨hd, hrc, hbc, hdr, hshift⟩ :=
    shiftFollowing_state rMid ref _ r2 h4'
  obtain ⟨hsd, hsrc, hsbc, hsdr⟩ := shiftReplaceOp_fields r ref
    (↑v.length - (frag.Pos.End - frag.Pos.Start))
  refine ⟨frag, run, hfr, hrun, ?_, ?_, ?_, ?_, ?_⟩
  · rw [hd]
    show (docBytes.length : Int) = _
    rw [hslen]
    ring
  · rw [hrc]
    show (shiftReplaceOp r ref _).ReplaceCount + 1 = _
    rw [hsrc]
  · rw [hbc]
    show (shiftReplaceOp r ref _).BytesChanged + _ = _
    rw [hsbc]
  · rw [hdr]
    exact hsdr
  · intro ref' hne
    obtain ⟨c, hc⟩ := hshift ref'
    have hmid : fragLenD r2 ref' = fragLenD rMid ref' :=
      fragLenD_of_shifted rMid r2 ref' c hc
    rw [hmid]
    unfold fragLenD
    have : getFrag rMid ref' = getFrag r ref' := by
      have h1 : getFrag rMid ref' =
          getFrag (shiftReplaceOp r ref
            (↑v.length - (frag.Pos.End - frag.Pos.Start))) ref' := rfl
      rw [h1, getFrag_shiftReplaceOp_ne r ref ref' _ hne]
    rw [this]

theorem cutFragment_spec (r : Replacer) (ref : FragRef) (r2 : Replacer)
    (h : cutFragment r ref = some r2) :
    ∃ frag run, getFrag r ref = some frag ∧ r.runs[frag.Run]? = some run ∧
      (r2.document.length : Int) =
        (r.document.length : Int) - (frag.Pos.End - frag.Pos.Start) ∧
      r2.ReplaceCount = r.ReplaceCount ∧
      r2.BytesChanged = r.BytesChanged - (frag.Pos.End - frag.Pos.Start) ∧
      r2.distinctRuns = r.distinctRuns ∧
      (∀ ref', ref' ≠ ref → fragLenD r2 ref' = fragLenD r ref') := by
  unfold cutFragment at h
  obtain ⟨frag, hfr, h2⟩ := Option.bind_eq_some.mp h
  obtain ⟨run, hrun, h3⟩ := Option.bind_eq_some.mp h2
  obtain ⟨docBytes, hsplice, h4⟩ := Option.bind_eq_some.mp h3
  obtain ⟨hslen, _, _, _, _⟩ := spliceChk_length _ _ _ _ _ hsplice
  set rMid : Replacer :=
    { shiftCutOp r ref (frag.Pos.End - frag.Pos.Start) with
      document := docBytes
      BytesChanged :=
        (shiftCutOp r ref (frag.Pos.End - frag.Pos.Start)).BytesChanged -
          (frag.Pos.End - frag.Pos.Start) } with hrMid
  have h4' : shiftFollowingFragments rMid ref
      (-(frag.Pos.End - frag.Pos.Start)) = some r2 := h4
  obtain ⟨hd, hrc, hbc, hdr, hshift⟩ :=
    shiftFollowing_state rMid ref _ r2 h4'
  obtain ⟨hsd, hsrc, hsbc, hsdr⟩ :=
    shiftCutOp_fields r ref (frag.Pos.End - frag.Pos.Start)
  refine ⟨frag, run, hfr, hrun, ?_, ?_, ?_, ?_, ?_⟩
  · rw [hd]
    show (docBytes.length : Int) = _
    rw [hslen]
    simp
  · rw [hrc]
    exact hsrc
  · rw [hbc]
    show (shiftCutOp r ref _).BytesChanged - _ = _
    rw [hsbc]
  · rw [hdr]
    exact hsdr
  · intro ref' hne
    obtain ⟨c, hc⟩ := hshift ref'
    have hmid : fragLenD r2 ref' = fragLenD rMid ref' :=
      fragLenD_of_shifted rMid r2 ref' c hc
    rw [hmid]
    unfold fragLenD
    have : getFrag rMid ref' = getFrag r ref' := by
      have h1 : getFrag rMid ref' =
          getFrag (shiftCutOp r ref (frag.Pos.End - frag.Pos.Start)) ref' := rfl
      rw [h1, getFrag_shiftCutOp_ne r ref ref' _ hne]
    rw [this]

theorem fragLenD_eq_some (r : Replacer) (ref : FragRef)
    (frag : PlaceholderFragment) (h : getFrag r ref = some frag) :
    fragLenD r ref = frag.Pos.End - frag.Pos.Start := by
  unfold fragLenD
  rw [h]
  rfl

theorem cutLoop_spec (pi : Nat) :
    ∀ (fis : List Nat) (r r2 : Replacer), fis.Nodup →
      cutLoop pi fis r = some r2 →
      (r2.document.length : Int) =
        (r.document.length : Int) -
          (fis.map (fun fi => fragLenD r (pi, fi))).sum ∧
      r2.ReplaceCount = r.ReplaceCount ∧
      r2.BytesChanged = r.BytesChanged -
        (fis.map (fun fi => fragLenD r (pi, fi))).sum ∧
      r2.distinctRuns = r.distinctRuns ∧
      ∀ ref', ref' ∉ fis.map (fun fi => (pi, fi)) →
        fragLenD r2 ref' = fragLenD r ref' := by
  intro fis
  induction fis with
  | nil =>
    intro r r2 _ h
    have h' : some r = some r2 := h
    obtain rfl := Option.some.inj h'
    exact ⟨by simp, rfl, by simp, rfl, fun _ _ => rfl⟩
  | cons fi rest ih =>
    intro r r2 hnd h
    unfold cutLoop at h
    obtain ⟨rStep, hcut, h2⟩ := Option.bind_eq_some.mp h
    obtain ⟨frag, run, hfr, hrun, hlen, hrc, hbc, hdr, hpres⟩ :=
      cutFragment_spec r (pi, fi) rStep hcut
    obtain ⟨hlen2, hrc2, hbc2, hdr2, hpres2⟩ :=
      ih rStep r2 (List.Nodup.of_cons hnd) h2
    have hfi_notin : fi ∉ rest := (List.nodup_cons.mp hnd).1
    have hmapeq : rest.map (fun fj => fragLenD rStep (pi, fj)) =
        rest.map (fun fj => fragLenD r (pi, fj)) := by
      refine List.map_congr_left ?_
      intro fj hfj
      refine hpres (pi, fj) ?_
      intro he
      have : fj = fi := (Prod.mk.injEq _ _ _ _).mp he |>.2
      exact hfi_notin (this ▸ hfj)
    have hhead : fragLenD r (pi, fi) = frag.Pos.End - frag.Pos.Start :=
      fragLenD_eq_some r (pi, fi) frag hfr
    refine ⟨?_, by rw [hrc2, hrc], ?_, by rw [hdr2, hdr], ?_⟩
    · rw [hlen2, hmapeq, hlen]
      simp only [List.map_cons, List.sum_cons, hhead]
      ring
    · rw [hbc2, hmapeq, hbc]
      simp only [List.map_cons, List.sum_cons, hhead]
      ring
    · intro ref' hni
      have hni1 : ref' ∉ rest.map (fun fj => (pi, fj)) := by
        intro hm
        exact hni (by simp only [List.map_cons]; exact List.mem_cons_of_mem _ hm)
      have hni2 : ref' ≠ (pi, fi) := by
        intro he
        exact hni (by simp only [List.map_cons]; exact he ▸ List.mem_cons_self _ _)
      rw [hpres2 ref' hni1, hpres ref' hni2]

theorem range_map_getD {α : Type} (g : α → Int) :
    ∀ (l : List α),
      (List.range l.length).map (fun i => ((l[i]?).map g).getD 0) = l.map g := by
  intro l
  induction l with
  | nil => rfl
  | cons a t ih =>
    show (List.range (t.length + 1)).map _ = _
    rw [List.range_succ_eq_map]
    simp only [List.map_cons, List.map_map]
    refine congrArg₂ List.cons (by simp) ?_
    rw [← ih]
    refine List.map_congr_left ?_
    intro j hj
    simp [Function.comp]

theorem textChk_go_length (runs : List Run) (doc : List Char) :
    ∀ (fs : List PlaceholderFragment) (t : List Char),
      placeholderTextChk.go runs doc fs = some t →
      (t.length : Int) = (fs.map (fun f => f.Pos.End - f.Pos.Start)).sum := by
  intro fs
  induction fs with
  | nil =>
    intro t h
    unfold placeholderTextChk.go at h
    obtain rfl := Option.some.inj h
    simp
  | cons f rest ih =>
    intro t h
    unfold placeholderTextChk.go at h
    obtain ⟨part, hpart, h2⟩ := Option.bind_eq_some.mp h
    obtain ⟨tl, htl, h3⟩ := Option.bind_eq_some.mp h2
    obtain rfl : part ++ tl = t := Option.some.inj h3
    unfold fragSliceChk at hpart
    obtain ⟨run, hrun, hslice⟩ := Option.bind_eq_some.mp hpart
    obtain ⟨hplen, _, _, _⟩ := sliceChk_length _ _ _ _ hslice
    have htlen := ih tl htl
    simp only [List.map_cons, List.sum_cons, List.length_append]
    push_cast
    rw [htlen]
    have : (part.length : Int) = f.Pos.End - f.Pos.Start := by
      rw [hplen]; ring
    rw [this]

theorem matched_step_spec (r : Replacer) (pi : Nat) (p : Placeholder)
    (v t : List Char) (r1 r2 : Replacer)
    (hp : r.placeholders[pi]? = some p)
    (ht : placeholderTextChk r.runs r.document p = some t)
    (h1 : replaceFragmentValue r (pi, 0) v = some r1)
    (h2 : cutLoop pi ((List.range p.Fragments.length).drop 1) r1 = some r2) :
    (r2.document.length : Int) =
      (r.document.length : Int) + v.length - t.length ∧
    r2.ReplaceCount = r.ReplaceCount + 1 ∧
    r2.BytesChanged = r.BytesChanged + ((v.length : Int) - t.length) ∧
    r2.distinctRuns = r.distinctRuns := by
  obtain ⟨frag0, run0, hfr0, hrun0, hlen1, hrc1, hbc1, hdr1, hpres1⟩ :=
    replaceFragmentValue_spec r (pi, 0) v r1 h1
  have hnodup : ((List.range p.Fragments.length).drop 1).Nodup :=
    (List.nodup_range _).sublist (List.drop_sublist _ _)
  obtain ⟨hlen2, hrc2, hbc2, hdr2, _⟩ :=
    cutLoop_spec pi ((List.range p.Fragments.length).drop 1) r1 r2 hnodup h2
  have hfragLen : ∀ i : Nat, fragLenD r (pi, i) =
      ((p.Fragments[i]?).map (fun f => f.Pos.End - f.Pos.Start)).getD 0 := by
    intro i
    unfold fragLenD getFrag
    rw [hp]
    rfl
  have hn : ∃ m, p.Fragments.length = m + 1 := by
    have : p.Fragments[0]? = some frag0 := by
      have : getFrag r (pi, 0) = p.Fragments[0]? := by
        unfold getFrag
        rw [hp]
        rfl
      rw [← this, hfr0]
    obtain ⟨hlt, _⟩ := List.getElem?_eq_some_iff.mp this
    exact ⟨p.Fragments.length - 1, by omega⟩
  obtain ⟨m, hm⟩ := hn
  have hsum : (t.length : Int) =
      ((List.range p.Fragments.length).map (fun i => fragLenD r (pi, i))).sum := by
    have h0 := textChk_go_length r.runs r.document p.Fragments t ht
    have hr := range_map_getD (fun f => f.Pos.End - f.Pos.Start) p.Fragments
    rw [h0, ← hr]
    congr 1
    exact List.map_congr_left (fun i _ => (hfragLen i).symm)
  have hdecomp : (List.range p.Fragments.length).map
        (fun i => fragLenD r (pi, i)) =
      fragLenD r (pi, 0) ::
        ((List.range p.Fragments.length).drop 1).map
          (fun i => fragLenD r (pi, i)) := by
    rw [hm, List.range_succ_eq_map]
    simp only [List.map_cons, List.drop_succ_cons, List.drop_zero]
  have htail_eq : ((List.range p.Fragments.length).drop 1).map
        (fun i => fragLenD r1 (pi, i)) =
      ((List.range p.Fragments.length).drop 1).map
        (fun i => fragLenD r (pi, i)) := by
    refine List.map_congr_left ?_
    intro i hi
    refine hpres1 (pi, i) ?_
    intro he
    have hi0 : i = 0 := ((Prod.mk.injEq _ _ _ _).mp he).2
    rw [hm] at hi
    rw [List.range_succ_eq_map, List.drop_succ_cons, List.drop_zero] at hi
    obtain ⟨j, _, hj⟩ := List.mem_map.mp hi
    omega
  have hfrag0len : fragLenD r (pi, 0) = frag0.Pos.End - frag0.Pos.Start :=
    fragLenD_eq_some r (pi, 0) frag0 hfr0
  have hsum' : (t.length : Int) = (frag0.Pos.End - frag0.Pos.Start) +
      (((List.range p.Fragments.length).drop 1).map
        (fun i => fragLenD r (pi, i))).sum := by
    rw [hsum, hdecomp]
    simp only [List.sum_cons, hfrag0len]
  refine ⟨?_, by rw [hrc2, hrc1], ?_, by rw [hdr2, hdr1]⟩
  · rw [hlen2, htail_eq, hlen1]
    rw [hsum']
    ring
  · rw [hbc2, htail_eq, hbc1]
    rw [hsum']
    ring

theorem replaceLoop_spec (key v : List Char) :
    ∀ (idxs : List Nat) (r : Replacer) (found : Bool) (r2 : Replacer)
      (found2 : Bool),
      replaceLoop key v idxs r found = some (r2, found2) →
      (r2.document.length : Int) =
        (r.document.length : Int) +
          ((r2.ReplaceCount : Int) - (r.ReplaceCount : Int)) *
            ((v.length : Int) - (key.length : Int)) ∧
      (r2.document.length : Int) - r2.BytesChanged =
        (r.document.length : Int) - r.BytesChanged ∧
      r2.distinctRuns = r.distinctRuns := by
  intro idxs
  induction idxs with
  | nil =>
    intro r found r2 found2 h
    have h' : some (r, found) = some (r2, found2) := h
    obtain h'' := Option.some.inj h'
    obtain rfl : r = r2 := ((Prod.mk.injEq _ _ _ _).mp h'').1
    refine ⟨by ring, rfl, rfl⟩
  | cons pi rest ih =>
    intro r found r2 found2 h
    unfold replaceLoop at h
    obtain ⟨p, hp, h2⟩ := Option.bind_eq_some.mp h
    obtain ⟨t, ht, h3⟩ := Option.bind_eq_some.mp h2
    by_cases hkey : t = key
    · rw [if_pos hkey] at h3
      obtain ⟨r1, h1, h4⟩ := Option.bind_eq_some.mp h3
      obtain ⟨rStep, hcl, h5⟩ := Option.bind_eq_some.mp h4
      obtain ⟨hlen, hrc, hbc, hdr⟩ :=
        matched_step_spec r pi p v t r1 rStep hp ht h1 hcl
      obtain ⟨hlen2, hbcInv2, hdr2⟩ := ih rStep true r2 found2 h5
      have hklen : (t.length : Int) = key.length := by rw [hkey]
      refine ⟨?_, ?_, by rw [hdr2, hdr]⟩
      · rw [hlen2, hlen, hrc, hklen]
        push_cast
        ring
      · rw [hbcInv2, hlen, hbc, hklen]
        ring
    · rw [if_neg hkey] at h3
      exact ih r found r2 found2 h3

theorem Replace_len (r : Replacer) (k v : List Char) (r2 : Replacer)
    (res : ReplaceResult) (h : Replace r k v = some (r2, res)) :
    (r2.document.length : Int) =
      (r.document.length : Int) +
        ((r2.ReplaceCount : Int) - (r.ReplaceCount : Int)) *
          (((escapeString v).length : Int) - ((normalizeKey k).length : Int)) ∧
    (r2.document.length : Int) - r2.BytesChanged =
      (r.document.length : Int) - r.BytesChanged ∧
    r2.distinctRuns = r.distinctRuns := by
  unfold Replace at h
  obtain ⟨⟨r1, found⟩, hloop, h2⟩ := Option.bind_eq_some.mp h
  obtain ⟨b, hb, h3⟩ := Option.bind_eq_some.mp h2
  have hr1 : r1 = r2 := by
    split at h3
    · exact ((Prod.mk.injEq _ _ _ _).mp (Option.some.inj h3)).1
    · split at h3 <;>
        exact ((Prod.mk.injEq _ _ _ _).mp (Option.some.inj h3)).1
  subst hr1
  exact replaceLoop_spec (normalizeKey k) (escapeString v)
    (List.range r.placeholders.length) r false r1 found hloop

/-! ## C1: length correctness of replace -/

/-- C1 counterexample: replacing key `a` with value `&` in `docA`.  The
value is spliced HTML-escaped (`&amp;`, 5 bytes), so the buffer grows
from 25 to 27 bytes, not to `25 + (len "&" - len "{a}") = 23` as the
claim computes from the raw value length. -/
theorem claim_C1_counterexample :
    (Replace rA ['a'] ['&']).map
      (fun pr => (pr.1.document.length, pr.1.ReplaceCount, pr.2)) =
      some (27, 1, .ok) ∧
    rA.document.length = 25 ∧
    ¬((27 : Int) = 25 + 1 * ((1 : Int) - 3)) := by
  refine ⟨?_, by decide, by decide⟩
  decide

/-- C1 (amended): after `Replace(K, V)` the buffer length equals the old
length plus, for each occurrence replaced (the increase of
`ReplaceCount`), the length of the HTML-escaped value minus the length of
the delimited key. -/
theorem claim_C1_amended (r : Replacer) (k v : List Char) (r2 : Replacer)
    (res : ReplaceResult) (h : Replace r k v = some (r2, res)) :
    (r2.document.length : Int) =
      (r.document.length : Int) +
        ((r2.ReplaceCount : Int) - (r.ReplaceCount : Int)) *
          (((escapeString v).length : Int) - ((normalizeKey k).length : Int)) :=
  (Replace_len r k v r2 res h).1

/-- C1 witness: the escaped replacement on `docA` (one occurrence,
escaped value `&amp;` of length 5, delimited key `{a}` of length 3:
25 + 1 * (5 - 3) = 27). -/
theorem claim_C1_witness :
    (rAafterAmp.document.length : Int) =
      (rA.document.length : Int) +
        ((rAafterAmp.ReplaceCount : Int) - (rA.ReplaceCount : Int)) *
          (((escapeString ['&']).length : Int) -
            ((normalizeKey ['a']).length : Int)) :=
  claim_C1_amended rA ['a'] ['&'] rAafterAmp .ok (by decide)

/-! ## C10: Bytes length equals initial length plus BytesChanged -/

theorem ReplaceSeq_lenBC :
    ∀ (calls : List (List Char × List Char)) (r r' : Replacer) (flag : Bool),
      ReplaceSeq r calls = some (r', flag) →
      (r'.document.length : Int) - r'.BytesChanged =
        (r.document.length : Int) - r.BytesChanged := by
  intro calls
  induction calls with
  | nil =>
    intro r r' flag h
    have h' : some (r, true) = some (r', flag) := h
    obtain rfl : r = r' := ((Prod.mk.injEq _ _ _ _).mp (Option.some.inj h')).1
    rfl
  | cons c rest ih =>
    intro r r' flag h
    obtain ⟨k, v⟩ := c
    unfold ReplaceSeq at h
    obtain ⟨⟨r1, res⟩, hcall, h2⟩ := Option.bind_eq_some.mp h
    obtain ⟨⟨r2, flag2⟩, hrest, h3⟩ := Option.bind_eq_some.mp h2
    have hr : r2 = r' :=
      ((Prod.mk.injEq _ _ _ _).mp (Option.some.inj h3)).1
    rw [← hr]
    rw [ih r1 r2 flag2 hrest]
    exact (Replace_len r k v r1 res hcall).2.1

/-- C10: for every replacer built by `NewReplacer` and every sequence of
`Replace` calls, the length of the document returned by `Bytes()` equals
the initial document length plus the accumulated signed `BytesChanged`. -/
theorem claim_C10 (doc : List Char) (ps : List Placeholder)
    (arena : List Run) (g : Int) (calls : List (List Char × List Char))
    (r' : Replacer) (flag : Bool)
    (h : ReplaceSeq (NewReplacer doc ps arena g) calls = some (r', flag)) :
    ((Bytes r').length : Int) = (doc.length : Int) + r'.BytesChanged := by
  have hbc := ReplaceSeq_lenBC calls (NewReplacer doc ps arena g) r' flag h
  have h0 : (NewReplacer doc ps arena g).BytesChanged = 0 := rfl
  have h1 : (NewReplacer doc ps arena g).document = doc := rfl
  rw [h0, h1] at hbc
  show (r'.document.length : Int) = _
  omega

/-- C10 witness: the sequence with the single call `Replace("a", "Z")` on
`docA`: 23 = 25 + (-2). -/
theorem claim_C10_witness :
    ((Bytes rAafterZ).length : Int) =
      (docA.length : Int) + rAafterZ.BytesChanged :=
  claim_C10 docA psA [runA] 1 [(['a'], ['Z'])] rAafterZ true (by decide)

/-! ## C5: the HTML-escaped value is spliced, not the raw value -/

/-- C5: `Replace` splices the HTML-escaped form of the value into the
buffer in place of the matched fragment: for a single-fragment
placeholder matching the delimited key, the new document is the old one
with `escapeString v` substituted over the fragment's byte range; the
inserted bytes differ from the raw value exactly when the value contains
an HTML-special character. -/
theorem claim_C5 (r : Replacer) (k v : List Char) (r2 : Replacer)
    (res : ReplaceResult) (f : PlaceholderFragment) (run : Run)
    (hp : r.placeholders = [⟨[f]⟩])
    (hrun : r.runs[f.Run]? = some run)
    (ht : placeholderTextChk r.runs r.document ⟨[f]⟩ = some (normalizeKey k))
    (h : Replace r k v = some (r2, res)) :
    r2.document =
      r.document.take (run.Text.OpenTag.End + f.Pos.Start).toNat ++
        escapeString v ++
        r.document.drop (run.Text.OpenTag.End + f.Pos.End).toNat ∧
    (hasSpecialChar v = true → escapeString v ≠ v) ∧
    (hasSpecialChar v = false → escapeString v = v) := by
  refine ⟨?_, escapeString_ne_of_special v, escapeString_eq_of_no_special v⟩
  unfold Replace at h
  obtain ⟨⟨r1, found⟩, hloop, h2⟩ := Option.bind_eq_some.mp h
  obtain ⟨b, hb, h3⟩ := Option.bind_eq_some.mp h2
  have hr1 : r1 = r2 := by
    split at h3
    · exact ((Prod.mk.injEq _ _ _ _).mp (Option.some.inj h3)).1
    · split at h3 <;>
        exact ((Prod.mk.injEq _ _ _ _).mp (Option.some.inj h3)).1
  have hrange : List.range r.placeholders.length = [0] := by
    rw [hp]
    rfl
  rw [hrange] at hloop
  unfold replaceLoop at hloop
  obtain ⟨p0, hp0, hl2⟩ := Option.bind_eq_some.mp hloop
  have hp0' : p0 = ⟨[f]⟩ := by
    rw [hp] at hp0
    exact (Option.some.inj (by simpa using hp0.symm))
  subst hp0'
  obtain ⟨t, htx, hl3⟩ := Option.bind_eq_some.mp hl2
  have htk : t = normalizeKey k := by
    rw [ht] at htx
    exact (Option.some.inj htx).symm
  rw [if_pos htk] at hl3
  obtain ⟨rr1, hrfv, hl4⟩ := Option.bind_eq_some.mp hl3
  obtain ⟨rc, hcl, hl5⟩ := Option.bind_eq_some.mp hl4
  have hdrop : (List.range ((⟨[f]⟩ : Placeholder).Fragments.length)).drop 1 =
      ([] : List Nat) := rfl
  rw [hdrop] at hcl
  have hrc : rr1 = rc := Option.some.inj hcl
  have hloopend : rc = r1 := by
    have h' : some (rc, true) = some (r1, found) := hl5
    exact ((Prod.mk.injEq _ _ _ _).mp (Option.some.inj h')).1
  unfold replaceFragmentValue at hrfv
  obtain ⟨frag, hfrag, hv2⟩ := Option.bind_eq_some.mp hrfv
  have hfr : frag = f := by
    have : getFrag r (0, 0) = some f := by
      unfold getFrag
      rw [hp]
      rfl
    rw [this] at hfrag
    exact (Option.some.inj hfrag).symm
  subst hfr
  obtain ⟨run', hrun', hv3⟩ := Option.bind_eq_some.mp hv2
  have hrr : run' = run := by
    rw [hrun] at hrun'
    exact (Option.some.inj hrun').symm
  subst hrr
  obtain ⟨docBytes, hsplice, hv4⟩ := Option.bind_eq_some.mp hv3
  obtain ⟨_, _, _, _, hform⟩ := spliceChk_length _ _ _ _ _ hsplice
  obtain ⟨hdoc, _, _, _, _⟩ := shiftFollowing_state _ _ _ _ hv4
  have hmiddoc : rr1.document = docBytes := hdoc
  rw [← hr1, ← hloopend, ← hrc, hmiddoc, hform]

/-- C5 witness: replacing `a` with the special value `&` in `docA`
splices `&amp;`. -/
theorem claim_C5_witness :
    rAafterAmp.document =
      rA.document.take ((runA.Text.OpenTag.End +
          (⟨⟨0, 3⟩, 0, 0⟩ : PlaceholderFragment).Pos.Start).toNat) ++
        escapeString ['&'] ++
        rA.document.drop ((runA.Text.OpenTag.End +
          (⟨⟨0, 3⟩, 0, 0⟩ : PlaceholderFragment).Pos.End).toNat) ∧
    (hasSpecialChar ['&'] = true → escapeString ['&'] ≠ ['&']) ∧
    (hasSpecialChar ['&'] = false → escapeString ['&'] = ['&']) :=
  claim_C5 rA ['a'] ['&'] rAafterAmp .ok ⟨⟨0, 3⟩, 0, 0⟩ runA
    (by decide) (by decide) (by decide) (by decide)

/-! ## C2: anatomy of shiftFollowingFragments -/

theorem modifyRun_getElem? (r : Replacer) (ri rj : Nat) (g : Run → Run) :
    (modifyRun r ri g).runs[rj]? =
      if ri = rj then (r.runs[rj]?).map g else r.runs[rj]? := by
  unfold modifyRun
  exact listModify_getElem? r.runs ri rj g

theorem mem_fragmentsInRun (r : Replacer) (ri : Nat) (ref : FragRef)
    (h : ref ∈ fragmentsInRun r ri) :
    ∃ f, getFrag r ref = some f ∧ f.Run = ri := by
  unfold fragmentsInRun at h
  obtain ⟨pi, _, hblk⟩ := List.mem_flatMap.mp h
  unfold fragRefsOfPlaceholderInRun at hblk
  cases hp : r.placeholders[pi]? with
  | none => rw [hp] at hblk; simp at hblk
  | some p =>
    rw [hp] at hblk
    obtain ⟨fi, hfi, hpr⟩ := List.mem_map.mp hblk
    obtain ⟨_, hpred⟩ := List.mem_filter.mp hfi
    cases hf : p.Fragments[fi]? with
    | none => rw [hf] at hpred; simp at hpred
    | some f =>
      rw [hf] at hpred
      simp at hpred
      refine ⟨f, ?_, hpred⟩
      rw [← hpr]
      unfold getFrag
      rw [hp]
      simpa using hf

theorem fragmentsInRun_mem (r : Replacer) (ri pi fi : Nat)
    (f : PlaceholderFragment) (hg : getFrag r (pi, fi) = some f)
    (hrun : f.Run = ri) : (pi, fi) ∈ fragmentsInRun r ri := by
  unfold getFrag at hg
  obtain ⟨p, hp, hf⟩ := Option.bind_eq_some.mp hg
  have hpi : pi < r.placeholders.length :=
    (List.getElem?_eq_some_iff.mp hp).1
  have hfi : fi < p.Fragments.length :=
    (List.getElem?_eq_some_iff.mp hf).1
  unfold fragmentsInRun
  refine List.mem_flatMap.mpr ⟨pi, ?_, ?_⟩
  · unfold placeholdersInRun
    refine List.mem_flatMap.mpr ⟨pi, List.mem_range.mpr hpi, ?_⟩
    rw [hp]
    refine List.mem_map.mpr ⟨f, ?_, rfl⟩
    refine List.mem_filter.mpr ⟨?_, by simp [hrun]⟩
    obtain ⟨h1, h2⟩ := List.getElem?_eq_some_iff.mp hf
    rw [← h2]
    exact List.getElem_mem h1
  · unfold fragRefsOfPlaceholderInRun
    rw [hp]
    refine List.mem_map.mpr ⟨fi, ?_, rfl⟩
    refine List.mem_filter.mpr ⟨List.mem_range.mpr hfi, ?_⟩
    rw [hf]
    simp [hrun]

theorem count_flatMap_single {α β : Type} [BEq α] [LawfulBEq α]
    [BEq β] [LawfulBEq β] (g : α → List β) (x : α) (b : β) :
    ∀ (l : List α), x ∈ l → l.count x = 1 → (g x).count b = 1 →
      (∀ y ∈ l, y ≠ x → b ∉ g y) → (l.flatMap g).count b = 1 := by
  intro l
  induction l with
  | nil => intro h; simp at h
  | cons a t ih =>
    intro hmem hcount hgx hother
    rw [List.flatMap_cons, List.count_append]
    by_cases hax : a = x
    · subst hax
      have hxt : a ∉ t := by
        rw [List.count_cons] at hcount
        simp only [beq_self_eq_true, if_true] at hcount
        have : t.count a = 0 := by omega
        exact List.count_eq_zero.mp this
      have htz : (t.flatMap g).count b = 0 := by
        refine List.count_eq_zero.mpr ?_
        intro hbm
        obtain ⟨y, hy, hby⟩ := List.mem_flatMap.mp hbm
        have hyx : y ≠ a := fun he => hxt (he ▸ hy)
        exact hother y (List.mem_cons_of_mem _ hy) hyx hby
      rw [hgx, htz]
    · have hbga : (g a).count b = 0 :=
        List.count_eq_zero.mpr (hother a (List.mem_cons_self _ _) hax)
      rw [hbga]
      have hxt : x ∈ t := by
        rcases List.mem_cons.mp hmem with he | ht
        · exact absurd he.symm hax
        · exact ht
      have hct : t.count x = 1 := by
        rw [List.count_cons] at hcount
        have : (a == x) = false := by simpa using hax
        rw [this] at hcount
        simpa using hcount
      have := ih hxt hct hgx
        (fun y hy hyx => hother y (List.mem_cons_of_mem _ hy) hyx)
      omega

theorem count_one_of_nodup_mem {β : Type} [BEq β] [LawfulBEq β] :
    ∀ (l : List β) (b : β), l.Nodup → b ∈ l → l.count b = 1 := by
  intro l
  induction l with
  | nil => intro b _ hm; simp at hm
  | cons a t ih =>
    intro b hn hm
    rw [List.count_cons]
    rcases List.mem_cons.mp hm with rfl | hmt
    · have hnt : b ∉ t := (List.nodup_cons.mp hn).1
      rw [List.count_eq_zero.mpr hnt]
      simp
    · have hne : (a == b) = false := by
        have hab : a ≠ b := by
          intro he
          exact (List.nodup_cons.mp hn).1 (he ▸ hmt)
        simpa using hab
      rw [hne, ih b (List.nodup_cons.mp hn).2 hmt]
      simp

theorem fragRefs_first_comp (r : Replacer) (pj ri : Nat) :
    ∀ x ∈ fragRefsOfPlaceholderInRun r pj ri, x.1 = pj := by
  intro x hx
  unfold fragRefsOfPlaceholderInRun at hx
  cases hp : r.placeholders[pj]? with
  | none => rw [hp] at hx; simp at hx
  | some p =>
    rw [hp] at hx
    obtain ⟨fi, _, hpr⟩ := List.mem_map.mp hx
    rw [← hpr]

theorem fragRefs_nodup (r : Replacer) (pj ri : Nat) :
    (fragRefsOfPlaceholderInRun r pj ri).Nodup := by
  unfold fragRefsOfPlaceholderInRun
  cases hp : r.placeholders[pj]? with
  | none => simp
  | some p =>
    refine List.Nodup.map ?_ ((List.nodup_range _).filter _)
    intro a b hab
    exact ((Prod.mk.injEq _ _ _ _).mp hab).2

theorem filter_run_len_one (r : Replacer) (ri pi fi : Nat) (p : Placeholder)
    (f : PlaceholderFragment)
    (huniq : atMostOnePerPlaceholderInRun r ri = true)
    (hp : r.placeholders[pi]? = some p) (hf : p.Fragments[fi]? = some f)
    (hrun : f.Run = ri) :
    (p.Fragments.filter (fun x => x.Run == ri)).length = 1 := by
  have hmemp : p ∈ r.placeholders := by
    obtain ⟨h1, h2⟩ := List.getElem?_eq_some_iff.mp hp
    exact h2 ▸ List.getElem_mem h1
  have hle := List.all_eq_true.mp huniq p hmemp
  simp only [decide_eq_true_eq] at hle
  have hmemf : f ∈ p.Fragments.filter (fun x => x.Run == ri) := by
    refine List.mem_filter.mpr ⟨?_, by simp [hrun]⟩
    obtain ⟨h1, h2⟩ := List.getElem?_eq_some_iff.mp hf
    exact h2 ▸ List.getElem_mem h1
  have hpos : 0 < (p.Fragments.filter (fun x => x.Run == ri)).length :=
    List.length_pos_of_mem hmemf
  omega

theorem placeholdersInRun_mem (r : Replacer) (ri pi fi : Nat)
    (p : Placeholder) (f : PlaceholderFragment)
    (hp : r.placeholders[pi]? = some p) (hf : p.Fragments[fi]? = some f)
    (hrun : f.Run = ri) : pi ∈ placeholdersInRun r ri := by
  unfold placeholdersInRun
  have hpi : pi < r.placeholders.length := (List.getElem?_eq_some_iff.mp hp).1
  refine List.mem_flatMap.mpr ⟨pi, List.mem_range.mpr hpi, ?_⟩
  rw [hp]
  refine List.mem_map.mpr ⟨f, ?_, rfl⟩
  refine List.mem_filter.mpr ⟨?_, by simp [hrun]⟩
  obtain ⟨h1, h2⟩ := List.getElem?_eq_some_iff.mp hf
  exact h2 ▸ List.getElem_mem h1

theorem placeholdersInRun_count (r : Replacer) (ri pi fi : Nat)
    (p : Placeholder) (f : PlaceholderFragment)
    (huniq : atMostOnePerPlaceholderInRun r ri = true)
    (hp : r.placeholders[pi]? = some p) (hf : p.Fragments[fi]? = some f)
    (hrun : f.Run = ri) : (placeholdersInRun r ri).count pi = 1 := by
  have hpi : pi < r.placeholders.length := (List.getElem?_eq_some_iff.mp hp).1
  unfold placeholdersInRun
  refine count_flatMap_single _ pi pi (List.range r.placeholders.length)
    (List.mem_range.mpr hpi)
    (List.count_eq_one_of_mem (List.nodup_range _) (List.mem_range.mpr hpi))
    ?_ ?_
  · rw [hp]
    have hlen := filter_run_len_one r ri pi fi p f huniq hp hf hrun
    show (List.map (fun _ => pi)
      (List.filter (fun f => f.Run == ri) p.Fragments)).count pi = 1
    have hall : ∀ b ∈ List.map (fun _ => pi)
        (List.filter (fun f => f.Run == ri) p.Fragments), pi = b := by
      intro b hb
      obtain ⟨a, _, hc⟩ := List.mem_map.mp hb
      exact hc
    rw [List.count_eq_length.mpr hall, List.length_map]
    exact hlen
  · intro pj _ hne hmem
    cases hq : r.placeholders[pj]? with
    | none => rw [hq] at hmem; simp at hmem
    | some q =>
      rw [hq] at hmem
      obtain ⟨a, _, hc⟩ := List.mem_map.mp hmem
      exact hne hc

theorem count_fragmentsInRun (r : Replacer) (ri pi fi : Nat)
    (f : PlaceholderFragment)
    (huniq : atMostOnePerPlaceholderInRun r ri = true)
    (hg : getFrag r (pi, fi) = some f) (hrun : f.Run = ri) :
    (fragmentsInRun r ri).count (pi, fi) = 1 := by
  unfold getFrag at hg
  obtain ⟨p, hp, hf⟩ := Option.bind_eq_some.mp hg
  unfold fragmentsInRun
  refine count_flatMap_single _ pi (pi, fi) (placeholdersInRun r ri)
    (placeholdersInRun_mem r ri pi fi p f hp hf hrun)
    (placeholdersInRun_count r ri pi fi p f huniq hp hf hrun) ?_ ?_
  · refine count_one_of_nodup_mem _ _ (fragRefs_nodup r pi ri) ?_
    unfold fragRefsOfPlaceholderInRun
    rw [hp]
    have hfi : fi < p.Fragments.length := (List.getElem?_eq_some_iff.mp hf).1
    refine List.mem_map.mpr ⟨fi, ?_, rfl⟩
    refine List.mem_filter.mpr ⟨List.mem_range.mpr hfi, ?_⟩
    rw [hf]
    simp [hrun]
  · intro pj _ hne hmem
    exact hne (fragRefs_first_comp r pj ri _ hmem).symm

theorem mem_fragmentsFromPosition (r : Replacer) (pos : Int) (ref : FragRef)
    (h : ref ∈ fragmentsFromPosition r pos) :
    ∃ f run, getFrag r ref = some f ∧ r.runs[f.Run]? = some run ∧
      pos ≤ run.OpenTag.Start := by
  unfold fragmentsFromPosition at h
  obtain ⟨pi, _, hin⟩ := List.mem_flatMap.mp h
  cases hp : r.placeholders[pi]? with
  | none => rw [hp] at hin; simp at hin
  | some p =>
    rw [hp] at hin
    obtain ⟨fi, hfi, hpr⟩ := List.mem_map.mp hin
    obtain ⟨_, hpred⟩ := List.mem_filter.mp hfi
    cases hf : p.Fragments[fi]? with
    | none => rw [hf] at hpred; simp at hpred
    | some f =>
      rw [hf, Option.some_bind] at hpred
      cases hrn : r.runs[f.Run]? with
      | none => rw [hrn] at hpred; simp at hpred
      | some run =>
        rw [hrn] at hpred
        simp at hpred
        refine ⟨f, run, ?_, hrn, hpred⟩
        rw [← hpr]
        unfold getFrag
        rw [hp]
        simpa using hf

theorem fragmentsFromPosition_mem (r : Replacer) (pos : Int) (pi fi : Nat)
    (f : PlaceholderFragment) (run : Run)
    (hg : getFrag r (pi, fi) = some f) (hrn : r.runs[f.Run]? = some run)
    (hpos : pos ≤ run.OpenTag.Start) :
    (pi, fi) ∈ fragmentsFromPosition r pos := by
  unfold getFrag at hg
  obtain ⟨p, hp, hf⟩ := Option.bind_eq_some.mp hg
  have hpi : pi < r.placeholders.length := (List.getElem?_eq_some_iff.mp hp).1
  have hfi : fi < p.Fragments.length := (List.getElem?_eq_some_iff.mp hf).1
  unfold fragmentsFromPosition
  refine List.mem_flatMap.mpr ⟨pi, List.mem_range.mpr hpi, ?_⟩
  rw [hp]
  refine List.mem_map.mpr ⟨fi, ?_, rfl⟩
  refine List.mem_filter.mpr ⟨List.mem_range.mpr hfi, ?_⟩
  rw [hf, Option.some_bind, hrn]
  simpa using hpos

theorem shiftSameRunFrags_precise (fromRef : FragRef) (d : Int) :
    ∀ (refs : List FragRef) (r0 r1 : Replacer),
      shiftSameRunFrags fromRef d refs r0 = some r1 →
      (∀ ref, ref ∉ refs → getFrag r1 ref = getFrag r0 ref) ∧
      getFrag r1 fromRef = getFrag r0 fromRef ∧
      (∀ ref f fromFrag, ref ∈ refs → ref ≠ fromRef → refs.count ref = 1 →
        getFrag r0 ref = some f → getFrag r0 fromRef = some fromFrag →
        (fromFrag.Pos.Start ≤ f.Pos.Start →
          getFrag r1 ref = some (shiftFragPos d f)) ∧
        (f.Pos.Start < fromFrag.Pos.Start → getFrag r1 ref = some f)) := by
  intro refs
  induction refs with
  | nil =>
    intro r0 r1 h
    have h' : some r0 = some r1 := h
    obtain rfl := Option.some.inj h'
    exact ⟨fun _ _ => rfl, rfl, fun ref f ff hm => absurd hm (by simp)⟩
  | cons refH rest ih =>
    intro r0 r1 h
    unfold shiftSameRunFrags at h
    by_cases he : refH = fromRef
    · rw [if_pos he] at h
      obtain ⟨ih1, ih2, ih3⟩ := ih r0 r1 h
      refine ⟨fun ref hn => ih1 ref (fun hm => hn (List.mem_cons_of_mem _ hm)),
        ih2, ?_⟩
      intro ref f ff hm hne hcount hgf hgff
      have hrne : refH ≠ ref := fun hx => hne (hx.symm.trans he)
      have hrefrest : ref ∈ rest := by
        rcases List.mem_cons.mp hm with h1 | hm'
        · exact absurd (h1.trans he) hne
        · exact hm'
      have hcrest : rest.count ref = 1 := by
        rw [List.count_cons] at hcount
        have hne2 : (refH == ref) = false := by simpa using hrne
        rw [hne2] at hcount
        simpa using hcount
      exact ih3 ref f ff hrefrest hne hcrest hgf hgff
    · rw [if_neg he] at h
      obtain ⟨fromFrag0, hff0, h2⟩ := Option.bind_eq_some.mp h
      obtain ⟨fragH, hfrH, h3⟩ := Option.bind_eq_some.mp h2
      by_cases hcond : fromFrag0.Pos.Start > fragH.Pos.Start
      · rw [if_pos hcond] at h3
        obtain ⟨ih1, ih2, ih3⟩ := ih r0 r1 h3
        refine ⟨fun ref hn => ih1 ref (fun hm => hn (List.mem_cons_of_mem _ hm)),
          ih2, ?_⟩
        intro ref f ff hm hne hcount hgf hgff
        obtain rfl : ff = fromFrag0 := by
          rw [hff0] at hgff
          exact (Option.some.inj hgff).symm
        by_cases hrh : ref = refH
        · subst hrh
          obtain rfl : f = fragH := by
            rw [hfrH] at hgf
            exact (Option.some.inj hgf).symm
          have hnotin : ref ∉ rest := by
            rw [List.count_cons] at hcount
            simp only [beq_self_eq_true, if_true] at hcount
            have : rest.count ref = 0 := by omega
            exact List.count_eq_zero.mp this
          have hpr : getFrag r1 ref = some f := by
            rw [ih1 ref hnotin, hgf]
          exact ⟨fun hle => absurd hle (by omega), fun _ => hpr⟩
        · have hrefrest : ref ∈ rest := by
            rcases List.mem_cons.mp hm with h1 | hm'
            · exact absurd h1 hrh
            · exact hm'
          have hcrest : rest.count ref = 1 := by
            rw [List.count_cons] at hcount
            have hne2 : (refH == ref) = false := by
              have hx2 : refH ≠ ref := fun hx => hrh hx.symm
              simpa using hx2
            rw [hne2] at hcount
            simpa using hcount
          exact ih3 ref f ff hrefrest hne hcrest hgf hgff
      · rw [if_neg hcond] at h3
        obtain ⟨ih1, ih2, ih3⟩ := ih (modifyFrag r0 refH (shiftFragPos d)) r1 h3
        have hpresH : ∀ ref, ref ≠ refH →
            getFrag (modifyFrag r0 refH (shiftFragPos d)) ref =
              getFrag r0 ref := by
          intro ref hne
          exact getFrag_modifyFrag_ne r0 refH ref _ (fun hx => hne hx.symm)
        refine ⟨?_, ?_, ?_⟩
        · intro ref hn
          have hne : ref ≠ refH := fun hx => hn (hx ▸ List.mem_cons_self _ _)
          rw [ih1 ref (fun hm => hn (List.mem_cons_of_mem _ hm)), hpresH ref hne]
        · rw [ih2, hpresH fromRef (fun hx => he hx.symm)]
        · intro ref f ff hm hne hcount hgf hgff
          obtain rfl : ff = fromFrag0 := by
            rw [hff0] at hgff
            exact (Option.some.inj hgff).symm
          by_cases hrh : ref = refH
          · subst hrh
            obtain rfl : f = fragH := by
              rw [hfrH] at hgf
              exact (Option.some.inj hgf).symm
            have hnotin : ref ∉ rest := by
              rw [List.count_cons] at hcount
              simp only [beq_self_eq_true, if_true] at hcount
              have : rest.count ref = 0 := by omega
              exact List.count_eq_zero.mp this
            have hval : getFrag r1 ref = some (shiftFragPos d f) := by
              rw [ih1 ref hnotin, getFrag_modifyFrag_eq, hgf]
              rfl
            exact ⟨fun _ => hval, fun hlt => absurd hlt (by omega)⟩
          · have hrefrest : ref ∈ rest := by
              rcases List.mem_cons.mp hm with h1 | hm'
              · exact absurd h1 hrh
              · exact hm'
            have hcrest : rest.count ref = 1 := by
              rw [List.count_cons] at hcount
              have hne2 : (refH == ref) = false := by
                have : refH ≠ ref := fun hx => hrh hx.symm
                simpa using this
              rw [hne2] at hcount
              simpa using hcount
            refine ih3 ref f ff hrefrest hne hcrest ?_ ?_
            · rw [hpresH ref hrh, hgf]
            · rw [hpresH fromRef (fun hx => he hx.symm), hff0]

theorem shiftLaterRuns_precise (d : Int) :
    ∀ (refs : List FragRef) (mods : List Nat) (r0 r1 : Replacer),
      shiftLaterRuns d refs mods r0 = some r1 →
      (∀ ri, ri ∈ mods → r1.runs[ri]? = r0.runs[ri]?) ∧
      (∀ ri, (∀ ref ∈ refs, ∀ f, getFrag r0 ref = some f → f.Run ≠ ri) →
        r1.runs[ri]? = r0.runs[ri]?) ∧
      (∀ ri, ri ∉ mods →
        (∃ ref ∈ refs, ∃ f, getFrag r0 ref = some f ∧ f.Run = ri) →
        r1.runs[ri]? = (r0.runs[ri]?).map (shiftRunAll d)) := by
  intro refs
  induction refs with
  | nil =>
    intro mods r0 r1 h
    have h' : some r0 = some r1 := h
    obtain rfl := Option.some.inj h'
    exact ⟨fun _ _ => rfl, fun _ _ => rfl,
      fun ri _ hw => absurd hw (by simp)⟩
  | cons refH rest ih =>
    intro mods r0 r1 h
    unfold shiftLaterRuns at h
    obtain ⟨fragH, hfrH, h2⟩ := Option.bind_eq_some.mp h
    by_cases hmem : fragH.Run ∈ mods
    · rw [if_pos (by simpa using hmem)] at h2
      obtain ⟨ih1, ih2, ih3⟩ := ih mods r0 r1 h2
      refine ⟨ih1, ?_, ?_⟩
      · intro ri hno
        exact ih2 ri (fun ref hm f hg => hno ref (List.mem_cons_of_mem _ hm) f hg)
      · intro ri hni hw
        obtain ⟨ref, hrm, f, hgf, hfr⟩ := hw
        rcases List.mem_cons.mp hrm with rfl | hrm'
        · obtain rfl : f = fragH := by
            rw [hfrH] at hgf
            exact (Option.some.inj hgf).symm
          exact absurd (hfr ▸ hmem) hni
        · exact ih3 ri hni ⟨ref, hrm', f, hgf, hfr⟩
    · rw [if_neg (by simpa using hmem)] at h2
      obtain ⟨ih1, ih2, ih3⟩ :=
        ih (mods ++ [fragH.Run]) (modifyRun r0 fragH.Run (shiftRunAll d)) r1 h2
      have hgsame : ∀ ref, getFrag (modifyRun r0 fragH.Run (shiftRunAll d)) ref =
          getFrag r0 ref := fun ref => getFrag_modifyRun r0 fragH.Run _ ref
      refine ⟨?_, ?_, ?_⟩
      · intro ri hri
        have hne : fragH.Run ≠ ri := fun hx => hmem (hx ▸ hri)
        rw [ih1 ri (List.mem_append_left _ hri), modifyRun_getElem?, if_neg hne]
      · intro ri hno
        have hne : fragH.Run ≠ ri := hno refH (List.mem_cons_self _ _) fragH hfrH
        have := ih2 ri (fun ref hm f hg =>
          hno ref (List.mem_cons_of_mem _ hm) f ((hgsame ref) ▸ hg))
        rw [this, modifyRun_getElem?, if_neg hne]
      · intro ri hni hw
        obtain ⟨ref, hrm, f, hgf, hfr⟩ := hw
        by_cases hri : ri = fragH.Run
        · have h1 := ih1 ri (by rw [hri]; exact List.mem_append_right _ (by simp))
          rw [h1, modifyRun_getElem?, if_pos hri.symm]
        · have hrm' : ref ∈ rest := by
            rcases List.mem_cons.mp hrm with rfl | hx
            · obtain rfl : f = fragH := by
                rw [hfrH] at hgf
                exact (Option.some.inj hgf).symm
              exact absurd hfr.symm hri
            · exact hx
          have hni' : ri ∉ mods ++ [fragH.Run] := by
            intro hx
            rcases List.mem_append.mp hx with hx1 | hx2
            · exact hni hx1
            · exact hri (by simpa using hx2)
          have := ih3 ri hni' ⟨ref, hrm', f, (hgsame ref) ▸ hgf, hfr⟩
          rw [this, modifyRun_getElem?, if_neg (fun hx => hri hx.symm)]

/-- C2: during a replace edit of a fragment by a signed delta,
`shiftFollowingFragments` (the shift procedure) leaves the edited run's
absolute spans and the edited fragment untouched, shifts only the
relative `Position` of every other fragment of the same run that does not
start before the edited fragment, and, for every fragment in a different
run whose run's `OpenTag.Start` is at or beyond the edited run's
text-open end, shifts all four of that run's absolute span pairs by delta
exactly once (runs before that boundary and their fragments are left
unchanged). -/
theorem claim_C2 (r : Replacer) (fromRef : FragRef) (d : Int) (r2 : Replacer)
    (fromFrag : PlaceholderFragment) (fromRun : Run)
    (hf : getFrag r fromRef = some fromFrag)
    (hr : r.runs[fromFrag.Run]? = some fromRun)
    (hgeom : fromRun.OpenTag.Start < fromRun.Text.OpenTag.End)
    (huniq : atMostOnePerPlaceholderInRun r fromFrag.Run = true)
    (h : shiftFollowingFragments r fromRef d = some r2) :
    r2.runs[fromFrag.Run]? = some fromRun ∧
    getFrag r2 fromRef = some fromFrag ∧
    (∀ ref f, ref ≠ fromRef → getFrag r ref = some f →
      f.Run = fromFrag.Run →
      (fromFrag.Pos.Start ≤ f.Pos.Start →
        getFrag r2 ref = some (shiftFragPos d f)) ∧
      (f.Pos.Start < fromFrag.Pos.Start → getFrag r2 ref = some f)) ∧
    (∀ ref f run, getFrag r ref = some f → f.Run ≠ fromFrag.Run →
      r.runs[f.Run]? = some run →
      (fromRun.Text.OpenTag.End ≤ run.OpenTag.Start →
        r2.runs[f.Run]? = some (shiftRunAll d run) ∧
          getFrag r2 ref = some f) ∧
      (run.OpenTag.Start < fromRun.Text.OpenTag.End →
        r2.runs[f.Run]? = some run ∧ getFrag r2 ref = some f)) := by
  unfold shiftFollowingFragments at h
  obtain ⟨fromFrag', hff', h2⟩ := Option.bind_eq_some.mp h
  obtain rfl : fromFrag = fromFrag' := by
    rw [hf] at hff'
    exact Option.some.inj hff'
  obtain ⟨rMid, hmid, h3⟩ := Option.bind_eq_some.mp h2
  obtain ⟨fromFrag1, hff1, h4⟩ := Option.bind_eq_some.mp h3
  obtain ⟨fromRun1, hfr1, h5⟩ := Option.bind_eq_some.mp h4
  obtain ⟨remaining, hrem, h6⟩ := Option.bind_eq_some.mp h5
  obtain ⟨_, hruns_mid, _, _, _, hshift_mid⟩ :=
    shiftSameRunFrags_state fromRef d _ r rMid hmid
  obtain ⟨P1pres, P1from, P1shift⟩ :=
    shiftSameRunFrags_precise fromRef d _ r rMid hmid
  obtain rfl : fromFrag = fromFrag1 := by
    rw [P1from, hf] at hff1
    exact Option.some.inj hff1
  obtain rfl : fromRun = fromRun1 := by
    rw [hruns_mid, hr] at hfr1
    exact Option.some.inj hfr1
  obtain ⟨_, hph3, _, _, _⟩ := shiftLaterRuns_state d remaining [] rMid r2 h6
  have hg23 : ∀ ref, getFrag r2 ref = getFrag rMid ref := by
    intro ref
    unfold getFrag
    rw [hph3]
  have hKEY1 : ∀ x ∈ fragmentsFromPosition rMid fromRun.Text.OpenTag.End,
      ∀ fx, getFrag rMid x = some fx → fx.Run ≠ fromFrag.Run := by
    intro x hx fx hgx hcontra
    obtain ⟨f', run', hgx', hrn', hpos'⟩ :=
      mem_fragmentsFromPosition rMid _ x hx
    obtain rfl : f' = fx := by
      rw [hgx] at hgx'
      exact (Option.some.inj hgx').symm
    rw [hcontra, hruns_mid, hr] at hrn'
    obtain rfl : run' = fromRun := (Option.some.inj hrn').symm
    omega
  have hKEY2 : ∀ x ∈ fragmentsFromPosition rMid fromRun.Text.OpenTag.End,
      ((fragmentsInRun r fromFrag.Run).contains x) = false := by
    intro x hx
    cases hc : (fragmentsInRun r fromFrag.Run).contains x with
    | false => rfl
    | true =>
      exfalso
      have hxmem : x ∈ fragmentsInRun r fromFrag.Run :=
        List.mem_of_elem_eq_true hc
      obtain ⟨g, hgg, hgrun⟩ := mem_fragmentsInRun r _ x hxmem
      obtain ⟨c, hcm⟩ := hshift_mid x
      have hgx : getFrag rMid x = some (shiftFragPos c g) := by
        rw [hcm, hgg]
        rfl
      exact hKEY1 x hx _ hgx (by
        show (shiftFragPos c g).Run = fromFrag.Run
        exact hgrun)
  have hremid : remaining = fragmentsFromPosition rMid fromRun.Text.OpenTag.End := by
    rw [removeHandledLoop_id _ _ _ _ hKEY2] at hrem
    rw [List.take_length] at hrem
    exact (Option.some.inj hrem).symm
  subst hremid
  obtain ⟨Q1, Q2, Q3⟩ := shiftLaterRuns_precise d _ [] rMid r2 h6
  refine ⟨?_, ?_, ?_, ?_⟩
  · rw [Q2 fromFrag.Run hKEY1, hruns_mid, hr]
  · rw [hg23 fromRef, P1from, hf]
  · intro ref f hne hgf hfrun
    obtain ⟨pi, fi⟩ := ref
    have hmem : (pi, fi) ∈ fragmentsInRun r fromFrag.Run :=
      fragmentsInRun_mem r fromFrag.Run pi fi f hgf hfrun
    have hcount : (fragmentsInRun r fromFrag.Run).count (pi, fi) = 1 :=
      count_fragmentsInRun r fromFrag.Run pi fi f huniq hgf hfrun
    obtain ⟨hc1, hc2⟩ :=
      P1shift (pi, fi) f fromFrag hmem hne hcount hgf hf
    exact ⟨fun hle => by rw [hg23, hc1 hle],
      fun hlt => by rw [hg23, hc2 hlt]⟩
  · intro ref f run hgf hfne hrn
    have hnotin : ref ∉ fragmentsInRun r fromFrag.Run := by
      intro hmem
      obtain ⟨g, hgg, hgrun⟩ := mem_fragmentsInRun r _ ref hmem
      obtain rfl : g = f := by
        rw [hgf] at hgg
        exact (Option.some.inj hgg).symm
      exact hfne hgrun
    have hmidf : getFrag rMid ref = some f := by
      rw [P1pres ref hnotin, hgf]
    have hmidrn : rMid.runs[f.Run]? = some run := by
      rw [hruns_mid, hrn]
    constructor
    · intro hpos
      obtain ⟨pi, fi⟩ := ref
      have hmem : (pi, fi) ∈
          fragmentsFromPosition rMid fromRun.Text.OpenTag.End :=
        fragmentsFromPosition_mem rMid _ pi fi f run hmidf hmidrn hpos
      have hQ3 := Q3 f.Run (by simp) ⟨(pi, fi), hmem, f, hmidf, rfl⟩
      rw [hQ3, hmidrn]
      exact ⟨rfl, by rw [hg23, hmidf]⟩
    · intro hpos
      have hno : ∀ x ∈ fragmentsFromPosition rMid fromRun.Text.OpenTag.End,
          ∀ fx, getFrag rMid x = some fx → fx.Run ≠ f.Run := by
        intro x hx fx hgx hcontra
        obtain ⟨f', run', hgx', hrn', hpos'⟩ :=
          mem_fragmentsFromPosition rMid _ x hx
        obtain rfl : f' = fx := by
          rw [hgx] at hgx'
          exact (Option.some.inj hgx').symm
        rw [hcontra, hmidrn] at hrn'
        obtain rfl : run' = run := (Option.some.inj hrn').symm
        omega
      rw [Q2 f.Run hno, hmidrn]
      exact ⟨rfl, by rw [hg23, hmidf]⟩

/-- C2 witness: shifting after the first fragment of the split
placeholder of `docB` by +5 moves run 1's spans once and leaves run 0 and
the edited fragment alone. -/
theorem claim_C2_witness :
    rBshift.runs[(0 : Nat)]? = some runB0 ∧
    getFrag rBshift (0, 0) = some ⟨⟨0, 3⟩, 0, 0⟩ ∧
    (∀ ref f, ref ≠ ((0 : Nat), (0 : Nat)) → getFrag rB ref = some f →
      f.Run = 0 →
      ((0 : Int) ≤ f.Pos.Start →
        getFrag rBshift ref = some (shiftFragPos 5 f)) ∧
      (f.Pos.Start < 0 → getFrag rBshift ref = some f)) ∧
    (∀ ref f run, getFrag rB ref = some f → f.Run ≠ 0 →
      rB.runs[f.Run]? = some run →
      ((10 : Int) ≤ run.OpenTag.Start →
        rBshift.runs[f.Run]? = some (shiftRunAll 5 run) ∧
          getFrag rBshift ref = some f) ∧
      (run.OpenTag.Start < 10 →
        rBshift.runs[f.Run]? = some run ∧ getFrag rBshift ref = some f)) :=
  claim_C2 rB (0, 0) 5 rBshift ⟨⟨0, 3⟩, 0, 0⟩ runB0 (by decide) (by decide)
    (by decide) (by decide) (by decide)

end GoDocx
